import Mathlib

/-!
Verification of the docx skill scripts (simple and tracked find/replace,
comment injection, package patching, validation) against their
natural-language specification.

Text is modelled as `List Char`; a run is its text (`List Char`); a
paragraph is its list of runs.  Python list indexing (which supports
negative indices and raises `IndexError` out of range) is modelled by
`pyGet`, and operations that can raise are modelled in `Option`, with
`none` standing for an uncaught Python exception aborting the invocation.
Recursions over strings are written with an explicit fuel argument (fuel
`≥ length + 1` never runs out, as proved by the `*_fuel` lemmas below) so
that they stay structural and kernel-computable.
-/

namespace DocxSkill

/-- Python list indexing `l[i]`: negative indices count from the end,
out-of-range indexing is an error (`none`). -/
def pyGet {α : Type} (l : List α) (i : Int) : Option α :=
  if i < 0 then
    if (l.length : Int) + i < 0 then none else l[((l.length : Int) + i).toNat]?
  else l[i.toNat]?

/-- Fuelled scanner behind `occsAux`. -/
def occsF (t : List Char) : Nat → List Char → Nat → List Nat
  | 0, _, _ => []
  | _ + 1, [], p => if t = [] then [p] else []
  | fuel + 1, c :: rest, p =>
    if t.isPrefixOf (c :: rest) then
      p :: occsF t fuel ((c :: rest).drop (max 1 t.length)) (p + max 1 t.length)
    else
      occsF t fuel rest (p + 1)

/-- Start positions of the matches `re.finditer(re.escape(t), s)` finds:
leftmost, non-overlapping occurrences of the literal `t`, scanning from
position `p`; a zero-width match (empty `t`) advances the scan by one. -/
def occsAux (t s : List Char) (p : Nat) : List Nat :=
  occsF t (s.length + 1) s p

theorem occsF_agree (t : List Char) : ∀ (f : Nat) (s : List Char) (p g : Nat),
    s.length < f → s.length < g → occsF t f s p = occsF t g s p := by
  intro f
  induction f with
  | zero => intro s p g h _; omega
  | succ f ih =>
    intro s p g hf hg
    cases g with
    | zero => omega
    | succ g =>
      cases s with
      | nil => rfl
      | cons c rest =>
        have h1 : 1 ≤ max 1 t.length := le_max_left _ _
        simp only [List.length_cons] at hf hg
        have L : occsF t (f + 1) (c :: rest) p =
            if t.isPrefixOf (c :: rest) then
              p :: occsF t f ((c :: rest).drop (max 1 t.length)) (p + max 1 t.length)
            else occsF t f rest (p + 1) := rfl
        have R : occsF t (g + 1) (c :: rest) p =
            if t.isPrefixOf (c :: rest) then
              p :: occsF t g ((c :: rest).drop (max 1 t.length)) (p + max 1 t.length)
            else occsF t g rest (p + 1) := rfl
        rw [L, R]
        have hd : ((c :: rest).drop (max 1 t.length)).length ≤ rest.length := by
          simp only [List.length_drop, List.length_cons]; omega
        by_cases hpre : t.isPrefixOf (c :: rest)
        · rw [if_pos hpre, if_pos hpre, ih _ _ g (by omega) (by omega)]
        · rw [if_neg hpre, if_neg hpre, ih _ _ g (by omega) (by omega)]

theorem occsF_fuel (t : List Char) (f : Nat) (s : List Char) (p : Nat)
    (h : s.length < f) : occsF t f s p = occsAux t s p :=
  occsF_agree t f s p (s.length + 1) h (Nat.lt_succ_self _)

theorem occsAux_nil (t : List Char) (p : Nat) :
    occsAux t [] p = if t = [] then [p] else [] := rfl

theorem occsAux_cons_pos {t : List Char} (c : Char) (rest : List Char) (p : Nat)
    (h : t.isPrefixOf (c :: rest)) :
    occsAux t (c :: rest) p =
      p :: occsAux t ((c :: rest).drop (max 1 t.length)) (p + max 1 t.length) := by
  have h1 : 1 ≤ max 1 t.length := le_max_left _ _
  have L : occsAux t (c :: rest) p =
      if t.isPrefixOf (c :: rest) then
        p :: occsF t (rest.length + 1) ((c :: rest).drop (max 1 t.length))
          (p + max 1 t.length)
      else occsF t (rest.length + 1) rest (p + 1) := rfl
  rw [L, if_pos h, occsF_fuel t _ _ _
    (by simp only [List.length_drop, List.length_cons]; omega)]

theorem occsAux_cons_neg {t : List Char} (c : Char) (rest : List Char) (p : Nat)
    (h : ¬ t.isPrefixOf (c :: rest)) :
    occsAux t (c :: rest) p = occsAux t rest (p + 1) := by
  have L : occsAux t (c :: rest) p =
      if t.isPrefixOf (c :: rest) then
        p :: occsF t (rest.length + 1) ((c :: rest).drop (max 1 t.length))
          (p + max 1 t.length)
      else occsF t (rest.length + 1) rest (p + 1) := rfl
  rw [L, if_neg h, occsF_fuel t _ _ _ (by omega)]

/-- The `(start, end)` spans of all matches of the literal `t` in `s`. -/
def matchesOf (t s : List Char) : List (Nat × Nat) :=
  (occsAux t s 0).map (fun p => (p, p + t.length))

/-- Fuelled recursion behind `pyReplace`. -/
def pyReplaceF (t r : List Char) : Nat → List Char → List Char
  | 0, _ => []
  | _ + 1, [] => []
  | fuel + 1, c :: rest =>
    if t ≠ [] ∧ t.isPrefixOf (c :: rest) then
      r ++ pyReplaceF t r fuel ((c :: rest).drop t.length)
    else c :: pyReplaceF t r fuel rest

/-- Python `str.replace` semantics for a non-empty pattern: every
leftmost non-overlapping occurrence of `t` replaced by `r`.  This is the
specification of "text with every occurrence of T replaced by R". -/
def pyReplace (t r s : List Char) : List Char :=
  pyReplaceF t r (s.length + 1) s

theorem pyReplaceF_agree (t r : List Char) : ∀ (f : Nat) (s : List Char) (g : Nat),
    s.length < f → s.length < g → pyReplaceF t r f s = pyReplaceF t r g s := by
  intro f
  induction f with
  | zero => intro s g h _; omega
  | succ f ih =>
    intro s g hf hg
    cases g with
    | zero => omega
    | succ g =>
      cases s with
      | nil => rfl
      | cons c rest =>
        simp only [List.length_cons] at hf hg
        have L : pyReplaceF t r (f + 1) (c :: rest) =
            if t ≠ [] ∧ t.isPrefixOf (c :: rest) then
              r ++ pyReplaceF t r f ((c :: rest).drop t.length)
            else c :: pyReplaceF t r f rest := rfl
        have R : pyReplaceF t r (g + 1) (c :: rest) =
            if t ≠ [] ∧ t.isPrefixOf (c :: rest) then
              r ++ pyReplaceF t r g ((c :: rest).drop t.length)
            else c :: pyReplaceF t r g rest := rfl
        rw [L, R]
        have hd : ((c :: rest).drop t.length).length ≤ rest.length + 1 := by
          simp only [List.length_drop, List.length_cons]; omega
        by_cases hpre : t ≠ [] ∧ t.isPrefixOf (c :: rest)
        · have h1 : 1 ≤ t.length := by
            cases t with
            | nil => exact absurd rfl hpre.1
            | cons a l => simp
          have hd' : ((c :: rest).drop t.length).length ≤ rest.length := by
            simp only [List.length_drop, List.length_cons]; omega
          rw [if_pos hpre, if_pos hpre, ih _ g (by omega) (by omega)]
        · rw [if_neg hpre, if_neg hpre, ih _ g (by omega) (by omega)]

theorem pyReplaceF_fuel (t r : List Char) (f : Nat) (s : List Char)
    (h : s.length < f) : pyReplaceF t r f s = pyReplace t r s :=
  pyReplaceF_agree t r f s (s.length + 1) h (Nat.lt_succ_self _)

theorem pyReplace_nil (t r : List Char) : pyReplace t r [] = [] := rfl

theorem pyReplace_cons_pos {t : List Char} (r : List Char) (c : Char)
    (rest : List Char) (h : t ≠ [] ∧ t.isPrefixOf (c :: rest)) :
    pyReplace t r (c :: rest) = r ++ pyReplace t r ((c :: rest).drop t.length) := by
  have h1 : 1 ≤ t.length := by
    cases t with
    | nil => exact absurd rfl h.1
    | cons a l => simp
  have hlen : ((c :: rest).drop t.length).length < (c :: rest).length + 1 := by
    simp only [List.length_drop, List.length_cons]; omega
  have L : pyReplace t r (c :: rest) =
      if t ≠ [] ∧ t.isPrefixOf (c :: rest) then
        r ++ pyReplaceF t r (rest.length + 1) ((c :: rest).drop t.length)
      else c :: pyReplaceF t r (rest.length + 1) rest := rfl
  rw [L, if_pos h, pyReplaceF_fuel t r _ _
    (by simp only [List.length_drop, List.length_cons]; omega)]

theorem pyReplace_cons_neg {t : List Char} (r : List Char) (c : Char)
    (rest : List Char) (h : ¬ (t ≠ [] ∧ t.isPrefixOf (c :: rest))) :
    pyReplace t r (c :: rest) = c :: pyReplace t r rest := by
  have L : pyReplace t r (c :: rest) =
      if t ≠ [] ∧ t.isPrefixOf (c :: rest) then
        r ++ pyReplaceF t r (rest.length + 1) ((c :: rest).drop t.length)
      else c :: pyReplaceF t r (rest.length + 1) rest := rfl
  rw [L, if_neg h, pyReplaceF_fuel t r _ _ (by omega)]

/-- Python substring test `t in s`. -/
def hasSub (t : List Char) : List Char → Bool
  | [] => t.isEmpty
  | c :: rest => t.isPrefixOf (c :: rest) || hasSub t rest

/-- The `char_map` of `_replace_in_runs`: maps each character position of
the concatenated paragraph text to its `(run index, offset in run)`. -/
def charMap (runs : List (List Char)) : List (Nat × Nat) :=
  (runs.enum.map (fun ir => (List.range ir.2.length).map (fun ci => (ir.1, ci)))).flatten

/-- One iteration of the replacement loop of `_replace_in_runs`
(docx_find_replace.py lines 67-90): looks the match span up in the
`char_map` of the current runs and rewrites the affected runs.  A match
inside one run rewrites it in place; a match spanning several runs puts
the replacement in the first run, clears the interior runs and keeps the
tail of the last run. -/
def applyMatch (repl : List Char) (runs : List (List Char)) (m : Nat × Nat) :
    Option (List (List Char)) :=
  let cm := charMap runs
  match pyGet cm (m.1 : Int) with
  | none => none
  | some sp =>
    match pyGet cm ((m.2 : Int) - 1) with
    | none => none
    | some ep =>
      if sp.1 = ep.1 then
        match runs[sp.1]? with
        | none => none
        | some run =>
          some (runs.set sp.1 (run.take sp.2 ++ repl ++ run.drop (ep.2 + 1)))
      else
        match runs[sp.1]?, runs[ep.1]? with
        | some runS, some runE =>
          let runs1 := runs.set sp.1 (runS.take sp.2 ++ repl)
          let runs2 := runs1.set ep.1 (runE.drop (ep.2 + 1))
          some ((List.range' (sp.1 + 1) (ep.1 - (sp.1 + 1))).foldl
            (fun rs i => rs.set i ([] : List Char)) runs2)
        | _, _ => none

/-- `_replace_in_runs(paragraph, find, replace)` of docx_find_replace.py
in its default configuration (case-sensitive, not whole-word): finds all
matches on the pre-edit concatenated run text and applies them from last
to first; returns the new runs and the match count. -/
def replace_in_runs (runs : List (List Char)) (t r : List Char) :
    Option (List (List Char) × Nat) :=
  if runs = [] then some (runs, 0)
  else
    let full := runs.flatten
    let ms := matchesOf t full
    if ms = [] then some (runs, 0)
    else do
      let runs' ← (ms.reverse).foldlM (applyMatch r) runs
      pure (runs', ms.length)

/-! ### Properties of `pyGet` and `charMap` -/

theorem pyGet_natCast {α : Type} (l : List α) (n : Nat) :
    pyGet l (n : Int) = l[n]? := by
  have h : ¬ ((n : Int) < 0) := by omega
  simp only [pyGet, h, if_false, Int.toNat_natCast]

theorem pyGet_natCast_sub_one {α : Type} (l : List α) (n : Nat) (h : 1 ≤ n) :
    pyGet l ((n : Int) - 1) = l[n - 1]? := by
  have h0 : ¬ ((n : Int) - 1 < 0) := by omega
  have h1 : ((n : Int) - 1).toNat = n - 1 := by omega
  simp only [pyGet, h0, if_false, h1]

theorem charMap_nil : charMap [] = [] := rfl

theorem charMap_cons (x : List Char) (rs : List (List Char)) :
    charMap (x :: rs) = (List.range x.length).map (fun c => (0, c)) ++
      (charMap rs).map (fun p => (p.1 + 1, p.2)) := by
  have hrs : charMap rs =
      (rs.enum.map (fun ir => (List.range ir.2.length).map (fun ci => (ir.1, ci)))).flatten :=
    rfl
  show ((x :: rs).enum.map _).flatten = _
  rw [hrs, List.enum_cons', List.map_cons, List.flatten_cons, List.map_map,
    List.map_flatten, List.map_map]
  congr 1
  refine congrArg List.flatten (List.map_congr_left ?_)
  rintro ⟨i, l⟩ _
  simp [Function.comp, List.map_map]

theorem charMap_length (rs : List (List Char)) :
    (charMap rs).length = rs.flatten.length := by
  induction rs with
  | nil => rfl
  | cons x rest ih =>
    rw [charMap_cons, List.flatten_cons]
    simp only [List.length_append, List.length_map, List.length_range, ih]

theorem charMap_get_head (x : List Char) (rs : List (List Char)) (p : Nat)
    (h : p < x.length) : (charMap (x :: rs))[p]? = some (0, p) := by
  rw [charMap_cons, List.getElem?_append_left (by simpa using h)]
  simp only [List.getElem?_map, List.getElem?_range h, Option.map_some']

theorem charMap_get_shift (x : List Char) (rs : List (List Char)) (p : Nat) :
    (charMap (x :: rs))[x.length + p]? =
      ((charMap rs)[p]?).map (fun q => (q.1 + 1, q.2)) := by
  rw [charMap_cons, List.getElem?_append_right (by simp)]
  simp only [List.length_map, List.length_range, Nat.add_sub_cancel_left,
    List.getElem?_map]

/-- Lifting the interior-clearing fold over a `cons`. -/
theorem foldl_set_shift {α : Type} (v : α) : ∀ (n i : Nat) (x : α) (l : List α),
    (List.range' (i + 1) n).foldl (fun rs j => rs.set j v) (x :: l) =
      x :: (List.range' i n).foldl (fun rs j => rs.set j v) l := by
  intro n
  induction n with
  | zero => intro i x l; rfl
  | succ n ih =>
    intro i x l
    rw [List.range'_succ, List.range'_succ, List.foldl_cons, List.foldl_cons,
      List.set_cons_succ, ih]

/-- Deleting the first `m + 1` characters of a paragraph the way the
multi-run branch of `_replace_in_runs` does: trim the run containing
character `m` and clear every run before it. -/
theorem dropSurgery : ∀ (rs : List (List Char)) (m er ec : Nat),
    (charMap rs)[m]? = some (er, ec) →
    ∃ runE, rs[er]? = some runE ∧
      ((List.range' 0 er).foldl (fun l i => l.set i ([] : List Char))
        (rs.set er (runE.drop (ec + 1)))).flatten = rs.flatten.drop (m + 1) := by
  intro rs
  induction rs with
  | nil => intro m er ec h; simp [charMap_nil] at h
  | cons x rest ih =>
    intro m er ec h
    by_cases hm : m < x.length
    · rw [charMap_get_head _ _ _ hm] at h
      obtain ⟨he, hc⟩ : 0 = er ∧ m = ec := by
        have := Option.some.inj h
        exact ⟨congrArg Prod.fst this, congrArg Prod.snd this⟩
      subst he; subst hc
      refine ⟨x, by simp, ?_⟩
      simp only [List.set_cons_zero, List.range'_zero, List.foldl_nil,
        List.flatten_cons, List.drop_append_eq_append_drop]
      have h0 : m + 1 - x.length = 0 := by omega
      rw [h0, List.drop_zero]
    · have hm' : m = x.length + (m - x.length) := by omega
      rw [hm', charMap_get_shift] at h
      obtain ⟨q, hq, hqe⟩ := Option.map_eq_some'.mp h
      obtain ⟨runE, hE, heq⟩ := ih (m - x.length) q.1 q.2 (by rw [← hq])
      have her : er = q.1 + 1 := by
        have := congrArg Prod.fst hqe; simpa using this.symm
      have hec : ec = q.2 := by
        have := congrArg Prod.snd hqe; simpa using this.symm
      subst her; subst hec
      refine ⟨runE, by simpa using hE, ?_⟩
      rw [List.set_cons_succ, List.range'_succ, List.foldl_cons,
        List.set_cons_zero, foldl_set_shift, List.flatten_cons, heq,
        List.flatten_cons, List.drop_append_eq_append_drop]
      rw [List.drop_of_length_le (by omega : x.length ≤ m + 1)]
      simp only [List.nil_append]
      congr 1
      omega

/-- A match lying strictly beyond the first run is applied entirely in the
tail, leaving the first run untouched. -/
theorem applyMatch_cons_shift (r x : List Char) (rest : List (List Char))
    (st en : Nat) (hst : x.length ≤ st) (hen : x.length + 1 ≤ en) :
    applyMatch r (x :: rest) (st, en) =
      (applyMatch r rest (st - x.length, en - x.length)).map (x :: ·) := by
  have h1 : pyGet (charMap (x :: rest)) ((st : Nat) : Int) =
      ((charMap rest)[st - x.length]?).map (fun q => (q.1 + 1, q.2)) := by
    rw [pyGet_natCast, show st = x.length + (st - x.length) from by omega,
      charMap_get_shift, Nat.add_sub_cancel_left]
  have h2 : pyGet (charMap (x :: rest)) ((en : Int) - 1) =
      ((charMap rest)[en - 1 - x.length]?).map (fun q => (q.1 + 1, q.2)) := by
    rw [pyGet_natCast_sub_one _ _ (by omega),
      show en - 1 = x.length + (en - 1 - x.length) from by omega,
      charMap_get_shift, Nat.add_sub_cancel_left]
  have h3 : pyGet (charMap rest) ((st - x.length : Nat) : Int) =
      (charMap rest)[st - x.length]? := pyGet_natCast _ _
  have h4 : pyGet (charMap rest) (((en - x.length : Nat) : Int) - 1) =
      (charMap rest)[en - 1 - x.length]? := by
    rw [pyGet_natCast_sub_one _ _ (by omega)]
    congr 1
    omega
  simp only [applyMatch, h1, h2, h3, h4]
  cases hsp : (charMap rest)[st - x.length]? with
  | none => simp
  | some q =>
    cases hep : (charMap rest)[en - 1 - x.length]? with
    | none => simp
    | some q2 =>
      simp only [Option.map_some']
      by_cases hq : q.1 = q2.1
      · rw [if_pos (by simpa using hq), if_pos hq]
        simp only [List.getElem?_cons_succ]
        cases hrun : rest[q.1]? with
        | none => simp
        | some run =>
          simp only [Option.map_some', List.set_cons_succ]
      · rw [if_neg (by simpa using hq), if_neg hq]
        simp only [List.getElem?_cons_succ]
        cases hrunS : rest[q.1]? with
        | none => simp
        | some runS =>
          cases hrunE : rest[q2.1]? with
          | none => simp
          | some runE =>
            simp only [Option.map_some', List.set_cons_succ, Option.some.injEq]
            rw [show q2.1 + 1 - (q.1 + 1 + 1) = q2.1 - (q.1 + 1) from by omega,
              foldl_set_shift]

/-- Applying one match span `(st, en)` of the pre-edit text rewrites the
paragraph so that its concatenated text is
`take st ++ replacement ++ drop en` of the old text (Python lines 67-84). -/
theorem applyMatch_flatten (r : List Char) : ∀ (runs : List (List Char))
    (st en : Nat), st < en → en ≤ runs.flatten.length →
    ∃ runs', applyMatch r runs (st, en) = some runs' ∧
      runs'.flatten = runs.flatten.take st ++ r ++ runs.flatten.drop en := by
  intro runs
  induction runs with
  | nil => intro st en h hlen; simp at hlen; omega
  | cons x rest ih =>
    intro st en h hlen
    rw [List.flatten_cons, List.length_append] at hlen
    by_cases hcase1 : en ≤ x.length
    · -- the match lies inside the first run
      have hst : st < x.length := by omega
      have hen1 : en - 1 < x.length := by omega
      have h1 : pyGet (charMap (x :: rest)) ((st : Nat) : Int) = some (0, st) := by
        rw [pyGet_natCast, charMap_get_head _ _ _ (by omega)]
      have h2 : pyGet (charMap (x :: rest)) ((en : Int) - 1) = some (0, en - 1) := by
        rw [pyGet_natCast_sub_one _ _ (by omega),
          charMap_get_head _ _ _ (by omega)]
      refine ⟨(x.take st ++ r ++ x.drop en) :: rest, ?_, ?_⟩
      · simp only [applyMatch, h1, h2, List.getElem?_cons_zero,
          List.set_cons_zero]
        rw [show en - 1 + 1 = en from by omega]
        simp
      · rw [List.flatten_cons, List.flatten_cons,
          List.take_append_eq_append_take, List.drop_append_eq_append_drop,
          show st - x.length = 0 from by omega, List.take_zero,
          show en - x.length = 0 from by omega, List.drop_zero, List.append_nil]
        simp only [List.append_assoc]
    · by_cases hcase2 : x.length ≤ st
      · -- the match lies entirely beyond the first run
        have hen : x.length + 1 ≤ en := by omega
        rw [applyMatch_cons_shift r x rest st en hcase2 hen]
        obtain ⟨rest', hr, he⟩ := ih (st - x.length) (en - x.length)
          (by omega) (by omega)
        refine ⟨x :: rest', by rw [hr]; rfl, ?_⟩
        rw [List.flatten_cons, List.flatten_cons, he,
          List.take_append_eq_append_take, List.drop_append_eq_append_drop,
          List.take_of_length_le (show x.length ≤ st from hcase2),
          List.drop_of_length_le (show x.length ≤ en from by omega)]
        simp only [List.nil_append, List.append_assoc]
      · -- the match starts in the first run and ends in a later one
        have hst : st < x.length := by omega
        have hxen : x.length + 1 ≤ en := by omega
        have h1 : pyGet (charMap (x :: rest)) ((st : Nat) : Int) = some (0, st) := by
          rw [pyGet_natCast, charMap_get_head _ _ _ (by omega)]
        have hm : en - 1 - x.length < (charMap rest).length := by
          rw [charMap_length]; omega
        obtain ⟨q, hq⟩ : ∃ q, (charMap rest)[en - 1 - x.length]? = some q := by
          cases hq0 : (charMap rest)[en - 1 - x.length]? with
          | none =>
            rw [List.getElem?_eq_none_iff] at hq0
            omega
          | some q => exact ⟨q, rfl⟩
        have h2 : pyGet (charMap (x :: rest)) ((en : Int) - 1) =
            some (q.1 + 1, q.2) := by
          rw [pyGet_natCast_sub_one _ _ (by omega),
            show en - 1 = x.length + (en - 1 - x.length) from by omega,
            charMap_get_shift, hq, Option.map_some']
        obtain ⟨runE, hE, heq⟩ := dropSurgery rest (en - 1 - x.length) q.1 q.2 hq
        refine ⟨(x.take st ++ r) ::
          (List.range' 0 q.1).foldl (fun l i => l.set i ([] : List Char))
            (rest.set q.1 (runE.drop (q.2 + 1))), ?_, ?_⟩
        · simp only [applyMatch, h1, h2, if_neg (show (0 : Nat) ≠ q.1 + 1 from by omega),
            List.getElem?_cons_zero, List.getElem?_cons_succ, hE,
            List.set_cons_zero, List.set_cons_succ, Option.some.injEq]
          rw [show q.1 + 1 - (0 + 1) = q.1 from by omega,
            show (0 : Nat) + 1 = 0 + 1 from rfl, foldl_set_shift]
        · rw [List.flatten_cons, List.flatten_cons, heq,
            List.take_append_eq_append_take, List.drop_append_eq_append_drop,
            show st - x.length = 0 from by omega, List.take_zero, List.append_nil,
            List.drop_of_length_le (show x.length ≤ en from by omega),
            show en - 1 - x.length + 1 = en - x.length from by omega]
          simp only [List.nil_append, List.append_assoc]

/-! ### The replacement loop at the level of the concatenated text -/

/-- String-level effect of the match loop: splice each `(start, end)` span,
processed in the given (right-to-left) order, in place in the text. -/
def applyRevStr (r : List Char) : List Char → List (Nat × Nat) → List Char
  | s, [] => s
  | s, m :: ms => applyRevStr r (s.take m.1 ++ r ++ s.drop m.2) ms

theorem applyRevStr_append (r : List Char) : ∀ (l1 l2 : List (Nat × Nat))
    (s : List Char), applyRevStr r s (l1 ++ l2) =
      applyRevStr r (applyRevStr r s l1) l2 := by
  intro l1
  induction l1 with
  | nil => intro l2 s; rfl
  | cons m ms ih => intro l2 s; exact ih l2 _

/-- Splices strictly to the right of a fixed prefix leave the prefix alone. -/
theorem applyRevStr_shift (r : List Char) : ∀ (ms : List (Nat × Nat))
    (pre s : List Char),
    applyRevStr r (pre ++ s)
        (ms.map (fun m => (m.1 + pre.length, m.2 + pre.length))) =
      pre ++ applyRevStr r s ms := by
  intro ms
  induction ms with
  | nil => intro pre s; rfl
  | cons m tl ih =>
    intro pre s
    show applyRevStr r ((pre ++ s).take (m.1 + pre.length) ++ r ++
        (pre ++ s).drop (m.2 + pre.length))
        (tl.map (fun m => (m.1 + pre.length, m.2 + pre.length))) =
      pre ++ applyRevStr r (s.take m.1 ++ r ++ s.drop m.2) tl
    rw [List.take_append_eq_append_take, List.drop_append_eq_append_drop,
      List.take_of_length_le (by omega), List.drop_of_length_le (by omega),
      Nat.add_sub_cancel, Nat.add_sub_cancel, List.nil_append]
    have h := ih pre (s.take m.1 ++ r ++ s.drop m.2)
    simp only [List.append_assoc] at h ⊢
    exact h

/-- Scanning from position `p` yields the positions of the scan from `0`,
shifted by `p`. -/
theorem occsAux_shift (t : List Char) : ∀ (n : Nat) (s : List Char),
    s.length ≤ n → ∀ p, occsAux t s p = (occsAux t s 0).map (· + p) := by
  intro n
  induction n with
  | zero =>
    intro s hs p
    have : s = [] := List.length_eq_zero.mp (by omega)
    subst this
    rw [occsAux_nil, occsAux_nil]
    by_cases ht : t = [] <;> simp [ht]
  | succ n ih =>
    intro s hs p
    cases s with
    | nil =>
      rw [occsAux_nil, occsAux_nil]
      by_cases ht : t = [] <;> simp [ht]
    | cons c rest =>
      have h1 : 1 ≤ max 1 t.length := le_max_left _ _
      simp only [List.length_cons] at hs
      by_cases hpre : t.isPrefixOf (c :: rest)
      · rw [occsAux_cons_pos _ _ _ hpre, occsAux_cons_pos _ _ _ hpre]
        have hd : ((c :: rest).drop (max 1 t.length)).length ≤ n := by
          simp only [List.length_drop, List.length_cons]; omega
        rw [ih _ hd (p + max 1 t.length), ih _ hd (0 + max 1 t.length),
          List.map_cons, List.map_map]
        refine congrArg₂ _ (by omega) ?_
        refine List.map_congr_left ?_
        intro a _
        simp only [Function.comp_apply]
        omega
      · rw [occsAux_cons_neg _ _ _ hpre, occsAux_cons_neg _ _ _ hpre,
          ih _ (by omega) (p + 1), ih _ (by omega) (0 + 1), List.map_map]
        refine List.map_congr_left ?_
        intro a _
        simp only [Function.comp_apply]
        omega

/-- A text with no occurrence of `t` is left unchanged by `pyReplace`. -/
theorem pyReplace_of_no_occ (t r : List Char) : ∀ (s : List Char),
    occsAux t s 0 = [] → pyReplace t r s = s := by
  intro s
  induction s with
  | nil => intro _; rfl
  | cons c rest ih =>
    intro h
    by_cases hpre : t.isPrefixOf (c :: rest)
    · rw [occsAux_cons_pos _ _ _ hpre] at h
      exact absurd h (List.cons_ne_nil _ _)
    · rw [occsAux_cons_neg _ _ _ hpre] at h
      rw [pyReplace_cons_neg _ _ _ (fun hc => hpre hc.2), ih]
      rw [occsAux_shift t rest.length rest (le_refl _) (0 + 1)] at h
      simpa using h

/-- Applying, right to left, all matches of `t` found on the pre-edit text
produces exactly the `str.replace` result. -/
theorem applyRevStr_occs (t r : List Char) (ht : t ≠ []) : ∀ (n : Nat)
    (s : List Char), s.length ≤ n →
    applyRevStr r s (((occsAux t s 0).map (fun p => (p, p + t.length))).reverse) =
      pyReplace t r s := by
  have htl : 1 ≤ t.length := by
    cases t with
    | nil => exact absurd rfl ht
    | cons a l => simp
  have hmax : max 1 t.length = t.length := by omega
  intro n
  induction n with
  | zero =>
    intro s hs
    have : s = [] := List.length_eq_zero.mp (by omega)
    subst this
    rw [occsAux_nil, if_neg ht]
    rfl
  | succ n ih =>
    intro s hs
    cases s with
    | nil =>
      rw [occsAux_nil, if_neg ht]
      rfl
    | cons c rest =>
      simp only [List.length_cons] at hs
      by_cases hpre : t.isPrefixOf (c :: rest)
      · -- a match at the head; `s = t ++ u`
        obtain ⟨u, hu⟩ : ∃ u, t ++ u = c :: rest :=
          (List.isPrefixOf_iff_prefix.mp hpre)
        have hdrop : (c :: rest).drop t.length = u := by
          rw [← hu, List.drop_append_eq_append_drop, List.drop_length,
            Nat.sub_self, List.drop_zero, List.nil_append]
        have hulen : u.length ≤ n := by
          have := congrArg List.length hu
          simp only [List.length_append, List.length_cons] at this
          omega
        rw [pyReplace_cons_pos r c rest ⟨ht, hpre⟩, hdrop]
        rw [occsAux_cons_pos _ _ _ hpre, hmax, hdrop, Nat.zero_add,
          occsAux_shift t u.length u (le_refl _) t.length,
          List.map_cons, List.reverse_cons, applyRevStr_append, List.map_map]
        have hshape : ((occsAux t u 0).map
            ((fun p => (p, p + t.length)) ∘ (· + t.length))) =
            ((occsAux t u 0).map (fun p => (p, p + t.length))).map
              (fun m => (m.1 + t.length, m.2 + t.length)) := by
          rw [List.map_map]
          refine List.map_congr_left ?_
          intro a _
          simp only [Function.comp_apply]
        rw [hshape, ← List.map_reverse, ← hu,
          applyRevStr_shift r (((occsAux t u 0).map
            (fun p => (p, p + t.length))).reverse) t u,
          ih u hulen]
        show (t ++ pyReplace t r u).take 0 ++ r ++
            (t ++ pyReplace t r u).drop (0 + t.length) = r ++ pyReplace t r u
        rw [List.take_zero, List.nil_append, Nat.zero_add,
          List.drop_append_eq_append_drop, List.drop_length, Nat.sub_self,
          List.drop_zero, List.nil_append]
      · rw [pyReplace_cons_neg _ _ _ (fun hc => hpre hc.2),
          occsAux_cons_neg _ _ _ hpre,
          occsAux_shift t rest.length rest (le_refl _) (0 + 1)]
        have hshape : ((occsAux t rest 0).map (· + (0 + 1))).map
              (fun p => (p, p + t.length)) =
            ((occsAux t rest 0).map (fun p => (p, p + t.length))).map
              (fun m => (m.1 + 1, m.2 + 1)) := by
          rw [List.map_map, List.map_map]
          refine List.map_congr_left ?_
          intro a _
          simp only [Function.comp_apply]
          refine congrArg₂ _ (by omega) (by omega)
        rw [hshape, ← List.map_reverse]
        have hsh := applyRevStr_shift r
          (((occsAux t rest 0).map (fun p => (p, p + t.length))).reverse)
          [c] rest
        simp only [List.length_cons, List.length_nil, Nat.zero_add,
          List.singleton_append] at hsh
        rw [hsh, ih rest (by omega)]

/-! ### The full replacement loop -/

/-- Well-formedness of a list of match start positions: each match starts
no earlier than `low`, ends by `hi`, and the next match starts only after
the current one ends (matches are in order and non-overlapping). -/
def FwdWF (tl : Nat) : Nat → Nat → List Nat → Prop
  | _, _, [] => True
  | low, hi, q :: qs => low ≤ q ∧ q + tl ≤ hi ∧ FwdWF tl (q + tl) hi qs

theorem FwdWF_low_mono (tl : Nat) : ∀ (ps : List Nat) (low low2 hi : Nat),
    low2 ≤ low → FwdWF tl low hi ps → FwdWF tl low2 hi ps := by
  intro ps low low2 hi h hwf
  cases ps with
  | nil => trivial
  | cons q qs => exact ⟨le_trans h hwf.1, hwf.2.1, hwf.2.2⟩

/-- The scanner produces a well-formed, orderly list of match positions. -/
theorem occsAux_fwd (t : List Char) (ht : t ≠ []) : ∀ (n : Nat) (s : List Char),
    s.length ≤ n → ∀ p, FwdWF t.length p (p + s.length) (occsAux t s p) := by
  have htl : 1 ≤ t.length := by
    cases t with
    | nil => exact absurd rfl ht
    | cons a l => simp
  have hmax : max 1 t.length = t.length := by omega
  intro n
  induction n with
  | zero =>
    intro s hs p
    have : s = [] := List.length_eq_zero.mp (by omega)
    subst this
    rw [occsAux_nil, if_neg ht]
    trivial
  | succ n ih =>
    intro s hs p
    cases s with
    | nil =>
      rw [occsAux_nil, if_neg ht]
      trivial
    | cons c rest =>
      simp only [List.length_cons] at hs
      by_cases hpre : t.isPrefixOf (c :: rest)
      · have hle : t.length ≤ (c :: rest).length :=
          (List.isPrefixOf_iff_prefix.mp hpre).length_le
        rw [occsAux_cons_pos _ _ _ hpre, hmax]
        refine ⟨le_refl _, ?_, ?_⟩
        · simp only [List.length_cons]
          simp only [List.length_cons] at hle
          omega
        · have hd : ((c :: rest).drop t.length).length ≤ n := by
            simp only [List.length_drop, List.length_cons]; omega
          have := ih _ hd (p + t.length)
          have harith : p + t.length + ((c :: rest).drop t.length).length =
              p + (c :: rest).length := by
            simp only [List.length_drop, List.length_cons] at *
            omega
          rw [harith] at this
          exact this
      · rw [occsAux_cons_neg _ _ _ hpre]
        have := ih rest (by omega) (p + 1)
        have harith : p + 1 + rest.length = p + (c :: rest).length := by
          simp only [List.length_cons]; omega
        rw [harith] at this
        exact FwdWF_low_mono _ _ _ _ _ (by omega) this

/-- Running the whole back-to-front match loop of `_replace_in_runs`:
it never raises, and its total effect on the concatenated text is
`applyRevStr` over the same match list.  The prefix before `low` is
untouched. -/
theorem replace_loop (r t : List Char) (ht : t ≠ []) : ∀ (ps : List Nat)
    (low hi : Nat) (runs : List (List Char)),
    FwdWF t.length low hi ps → low ≤ hi → hi ≤ runs.flatten.length →
    ∃ runs', ((ps.map (fun p => (p, p + t.length))).reverse).foldlM
        (applyMatch r) runs = some runs' ∧
      runs'.flatten = applyRevStr r runs.flatten
        ((ps.map (fun p => (p, p + t.length))).reverse) ∧
      runs'.flatten.take low = runs.flatten.take low ∧
      low ≤ runs'.flatten.length := by
  have htl : 1 ≤ t.length := by
    cases t with
    | nil => exact absurd rfl ht
    | cons a l => simp
  intro ps
  induction ps with
  | nil =>
    intro low hi runs _ hlh hhi
    exact ⟨runs, rfl, rfl, rfl, by omega⟩
  | cons q qs ih =>
    rintro low hi runs ⟨hlq, hqhi, hwf⟩ hlh hhi
    obtain ⟨runs1, hf1, hfl1, htk1, hln1⟩ := ih (q + t.length) hi runs hwf hqhi hhi
    obtain ⟨runs2, hap, hfl2⟩ := applyMatch_flatten r runs1 q (q + t.length)
      (by omega) (by omega)
    have hq_f1 : q + t.length ≤ runs1.flatten.length := hln1
    refine ⟨runs2, ?_, ?_, ?_, ?_⟩
    · rw [List.map_cons, List.reverse_cons, List.foldlM_append, hf1]
      simp [hap]
    · rw [List.map_cons, List.reverse_cons, applyRevStr_append, ← hfl1]
      exact hfl2
    · rw [hfl2]
      have hlenA : (runs1.flatten.take q).length = q := by
        simp only [List.length_take]
        omega
      rw [List.take_append_eq_append_take, List.take_append_eq_append_take,
        hlenA, show low - q = 0 from by omega, List.take_zero, List.append_nil,
        List.length_append, hlenA,
        show low - (q + r.length) = 0 from by omega, List.take_zero,
        List.append_nil, List.take_take, show min low q = low from by omega]
      calc runs1.flatten.take low
          = (runs1.flatten.take (q + t.length)).take low := by
            rw [List.take_take, show min low (q + t.length) = low from by omega]
        _ = (runs.flatten.take (q + t.length)).take low := by rw [htk1]
        _ = runs.flatten.take low := by
            rw [List.take_take, show min low (q + t.length) = low from by omega]
    · rw [hfl2]
      simp only [List.length_append, List.length_take]
      omega

/-- Simple (non-tracked) find/replace on one paragraph, default flags:
never raises for a non-empty search term, returns the number of
occurrences of the search term in the pre-edit concatenated run text, and
the post-edit concatenated run text is exactly the pre-edit text with
every occurrence replaced. -/
theorem replace_in_runs_spec (runs : List (List Char)) (t r : List Char)
    (ht : t ≠ []) :
    ∃ runs', replace_in_runs runs t r =
        some (runs', (occsAux t runs.flatten 0).length) ∧
      runs'.flatten = pyReplace t r runs.flatten := by
  by_cases hruns : runs = []
  · subst hruns
    refine ⟨[], ?_, rfl⟩
    rw [show replace_in_runs [] t r = some ([], 0) from rfl]
    rw [show List.flatten ([] : List (List Char)) = [] from rfl,
      occsAux_nil, if_neg ht]
    rfl
  · have hunfold : replace_in_runs runs t r =
        (if matchesOf t runs.flatten = [] then some (runs, 0)
         else do
           let runs' ← ((matchesOf t runs.flatten).reverse).foldlM (applyMatch r) runs
           pure (runs', (matchesOf t runs.flatten).length)) := by
      rw [replace_in_runs, if_neg hruns]
    cases hocc : occsAux t runs.flatten 0 with
    | nil =>
      refine ⟨runs, ?_, ?_⟩
      · rw [hunfold,
          if_pos (show matchesOf t runs.flatten = [] by
            show (occsAux t runs.flatten 0).map _ = []
            rw [hocc]; rfl)]
        rfl
      · rw [pyReplace_of_no_occ t r _ hocc]
    | cons q qs =>
      have hwf := occsAux_fwd t ht runs.flatten.length runs.flatten (le_refl _) 0
      rw [Nat.zero_add] at hwf
      obtain ⟨runs', hfold, hfl, _, _⟩ := replace_loop r t ht
        (occsAux t runs.flatten 0) 0 runs.flatten.length runs hwf
        (by omega) (le_refl _)
      refine ⟨runs', ?_, ?_⟩
      · rw [hunfold,
          if_neg (show ¬ matchesOf t runs.flatten = [] by
            show ¬ (occsAux t runs.flatten 0).map _ = []
            rw [hocc]; simp)]
        show (((occsAux t runs.flatten 0).map _).reverse).foldlM (applyMatch r) runs
            >>= _ = _
        rw [hfold]
        show some (runs', ((occsAux t runs.flatten 0).map
          (fun p => (p, p + t.length))).length) = _
        rw [List.length_map, hocc]
      · rw [hfl, applyRevStr_occs t r ht runs.flatten.length runs.flatten (le_refl _)]


/-! ### Document-level simple replace (docx_find_replace.py `simple_replace`) -/

/-- A header or footer of a section: python-docx exposes its
`is_linked_to_previous` flag and its paragraphs. -/
structure HdrFtr where
  linked : Bool
  paras : List (List (List Char))
deriving DecidableEq, Repr

/-- The parts of the document `simple_replace` walks: body paragraphs,
table-cell paragraphs, and the headers/footers of the sections. -/
structure DocModel where
  body : List (List (List Char))
  tables : List (List (List Char))
  headers : List HdrFtr
  footers : List HdrFtr
deriving DecidableEq, Repr

inductive Scope
  | body
  | headers
  | footers
  | tables
  | all
deriving DecidableEq, Repr

/-- Run `_replace_in_runs` over a list of paragraphs, accumulating the
replacement count. -/
def processParas (t r : List Char) : List (List (List Char)) →
    Option (List (List (List Char)) × Nat)
  | [] => some ([], 0)
  | p :: ps =>
    match replace_in_runs p t r with
    | none => none
    | some (p2, c) =>
      match processParas t r ps with
      | none => none
      | some (ps2, c2) => some (p2 :: ps2, c + c2)

/-- Walk a list of headers (or footers), replacing only in those with
`is_linked_to_previous is False` (docx_find_replace.py lines 117-128). -/
def processHF (t r : List Char) : List HdrFtr → Option (List HdrFtr × Nat)
  | [] => some ([], 0)
  | h :: hs =>
    match (if h.linked = false then processParas t r h.paras
           else some (h.paras, 0)) with
    | none => none
    | some (ps2, c) =>
      match processHF t r hs with
      | none => none
      | some (hs2, c2) => some (⟨h.linked, ps2⟩ :: hs2, c + c2)

/-- `simple_replace` of docx_find_replace.py (default flags): walks the
scopes, mutates the in-memory document, and saves to `output` unless
`--dry-run` is given.  The returned list is the document-content writes
performed on disk. -/
def simple_replace (doc : DocModel) (t r : List Char) (scope : Scope)
    (dryRun : Bool) (output : String) :
    Option (DocModel × Nat × List String) :=
  match (if scope = Scope.all ∨ scope = Scope.body
         then processParas t r doc.body else some (doc.body, 0)) with
  | none => none
  | some (body2, c1) =>
    match (if scope = Scope.all ∨ scope = Scope.tables
           then processParas t r doc.tables else some (doc.tables, 0)) with
    | none => none
    | some (tables2, c2) =>
      match (if scope = Scope.all ∨ scope = Scope.headers
             then processHF t r doc.headers else some (doc.headers, 0)) with
      | none => none
      | some (headers2, c3) =>
        match (if scope = Scope.all ∨ scope = Scope.footers
               then processHF t r doc.footers else some (doc.footers, 0)) with
        | none => none
        | some (footers2, c4) =>
          some (⟨body2, tables2, headers2, footers2⟩, c1 + c2 + c3 + c4,
            if dryRun then [] else [output])

/-! ### Tracked-changes replace (docx_find_replace.py `tracked_replace`) -/

/-- A fragment spliced into the paragraph in place of the matched run:
an ordinary run, a `w:del` deletion, or a `w:ins` insertion.  Tracked
fragments carry their `w:id`, `w:author` and `w:date` attributes. -/
inductive Frag
  | plainRun (text : List Char)
  | del (id : Nat) (author date : String) (text : List Char)
  | ins (id : Nat) (author date : String) (text : List Char)
deriving DecidableEq, Repr

/-- The fragment list built for one match (docx_find_replace.py lines
219-241): optional prefix run, deletion of the matched text, insertion of
the replacement, optional suffix run.  The deletion takes the current
change id and the insertion the next one. -/
def fragsForMatch (repl : List Char) (author date : String) (cid : Nat)
    (text : List Char) (m : Nat × Nat) : List Frag :=
  (if text.take m.1 ≠ [] then [Frag.plainRun (text.take m.1)] else []) ++
  [Frag.del cid author date ((text.take m.2).drop m.1),
   Frag.ins (cid + 1) author date repl] ++
  (if text.drop m.2 ≠ [] then [Frag.plainRun (text.drop m.2)] else [])

/-- Processing of one `w:t` leaf in non-dry-run mode.  With no match the
leaf is left alone.  With exactly one match the run is replaced by the
fragment list and the change counter advances by two.  With two or more
matches the second loop iteration calls `insertBefore` relative to the
already-removed run and minidom raises `NotFoundErr`, aborting the
invocation (`none`). -/
def processLeaf (find repl : List Char) (author date : String)
    (text : List Char) (cid : Nat) : Option (List Frag × Nat × Nat) :=
  if text = [] then some ([Frag.plainRun text], cid, 0)
  else
    match matchesOf find text with
    | [] => some ([Frag.plainRun text], cid, 0)
    | [m] => some (fragsForMatch repl author date cid text m, cid + 2, 1)
    | _ => none

/-- The loop over all `w:t` leaves, threading the change-id counter
(started at 100 by the caller) and the replacement count. -/
def trackedProcess (find repl : List Char) (author date : String) :
    List (List Char) → Nat → Option (List (List Frag) × Nat × Nat)
  | [], cid => some ([], cid, 0)
  | leaf :: rest, cid =>
    match processLeaf find repl author date leaf cid with
    | none => none
    | some (frags, cid1, c1) =>
      match trackedProcess find repl author date rest cid1 with
      | none => none
      | some (out, cid2, c2) => some (frags :: out, cid2, c1 + c2)

/-- `tracked_replace` of docx_find_replace.py: the timestamp `date` is
captured once per invocation (line 174) and the change-id counter starts
at 100 (line 183).  A leaf with empty text is skipped before matching
(`if not text: continue`, line 187) in every mode.  In dry-run mode
matches are only counted and nothing is written; otherwise the document
is rewritten and packed to `output`. -/
def tracked_replace (leaves : List (List Char)) (find repl : List Char)
    (author date : String) (dryRun : Bool) (output : String) :
    Option (List (List Frag) × Nat × List String) :=
  if dryRun then
    some (leaves.map (fun t => [Frag.plainRun t]),
      (leaves.map (fun t =>
        if t = [] then 0 else (matchesOf find t).length)).sum, [])
  else
    match trackedProcess find repl author date leaves 100 with
    | none => none
    | some (out, _, total) => some (out, total, [output])

/-- The ordered list of change ids carried by the tracked fragments. -/
def fragChangeIds : List Frag → List Nat
  | [] => []
  | Frag.plainRun _ :: rest => fragChangeIds rest
  | Frag.del i _ _ _ :: rest => i :: fragChangeIds rest
  | Frag.ins i _ _ _ :: rest => i :: fragChangeIds rest


/-! ### Comment marker injection (docx_add_comments.py `_inject_markers`) -/

/-- A child element of a paragraph.  `run` and `refRun` are both `w:r`
elements (the reference run created by a previous injection is found by
`findall("w:r")` like any other run); the rest are non-run children. -/
inductive PChild
  | run (text : List Char)
  | pPr
  | rangeStart (id : Nat)
  | rangeEnd (id : Nat)
  | refRun (id : Nat)
  | bookmark
deriving DecidableEq, Repr

def isRun : PChild → Bool
  | PChild.run _ => true
  | PChild.refRun _ => true
  | _ => false

/-- Python `list.insert(i, a)`: insert before position `i`, appending when
`i` is past the end. -/
def insertAt {α : Type} (l : List α) (i : Nat) (a : α) : List α :=
  l.take i ++ a :: l.drop i

/-- The position of the last run element (`children.index(runs[-1])`). -/
def lastRunIdx (l : List PChild) : Nat :=
  l.length - 1 - l.reverse.findIdx isRun

/-- `_inject_markers(para, comment_id)` (docx_add_comments.py lines
164-214): no runs means no change; otherwise insert `commentRangeStart`
before the first run, `commentRangeEnd` after the last run, and the
reference run right after the range end. -/
def inject_markers (cs : List PChild) (cid : Nat) : List PChild :=
  if cs.filter isRun = [] then cs
  else
    let i := cs.findIdx isRun
    let cs1 := insertAt cs i (PChild.rangeStart cid)
    let j := lastRunIdx cs1
    let cs2 := insertAt cs1 (j + 1) (PChild.rangeEnd cid)
    let k := cs2.findIdx (fun c => decide (c = PChild.rangeEnd cid))
    insertAt cs2 (k + 1) (PChild.refRun cid)

/-! ### Comment data (docx_add_comments.py `add_comments`,
`_build_comments_extended_xml`) -/

/-- One entry of the JSON comment manifest.  Missing fields decode to the
empty string / `none` via `dict.get`. -/
structure MEntry where
  anchor : List Char
  body : List Char
  resolved : Bool
  replyTo : Option Int
deriving DecidableEq, Repr

/-- `anchor_text in para.text` over body paragraphs (and table-cell
paragraphs, which the search visits next; the document is modelled as the
list of its paragraph texts in search order). -/
def anchorFound (doc : List (List Char)) (anchor : List Char) : Bool :=
  doc.any (fun para => hasSub anchor para)

/-- The manifest indices whose entries are accepted and placed: both
required fields present and the anchor text found in the document. -/
def placedIdxs (comments : List MEntry) (doc : List (List Char)) : List Nat :=
  (comments.enum.filter (fun ie =>
    (!ie.2.anchor.isEmpty) && (!ie.2.body.isEmpty) &&
      anchorFound doc ie.2.anchor)).map Prod.fst

/-- One record of the `comment_data` list built by `add_comments`:
numeric id `100 + manifest index`, the random `paraId` drawn for this
entry (the random generator is modelled as the oracle `paraIds`), and the
entry fields. -/
structure CData where
  cid : Nat
  body : List Char
  paraId : Nat
  resolved : Bool
  replyTo : Option Int
deriving DecidableEq, Repr

/-- Phase 1 of `add_comments` (docx_add_comments.py lines 91-146):
enumerate the manifest, skip entries with a missing field, skip entries
whose anchor is not found, and collect a `CData` record for the rest. -/
def buildCommentData (comments : List MEntry) (doc : List (List Char))
    (paraIds : Nat → Nat) : List CData :=
  comments.enum.filterMap (fun ie =>
    if (!ie.2.anchor.isEmpty) && (!ie.2.body.isEmpty) &&
        anchorFound doc ie.2.anchor then
      some ⟨100 + ie.1, ie.2.body, paraIds ie.1, ie.2.resolved, ie.2.replyTo⟩
    else none)

/-- The numeric comment ids generated by one `add_comments` invocation. -/
def genIds (comments : List MEntry) (doc : List (List Char)) : List Nat :=
  (buildCommentData comments doc (fun _ => 0)).map (·.cid)

/-- One `w15:commentEx` element of the generated commentsExtended part. -/
structure ExtEntry where
  paraId : Nat
  parent : Option Nat
  done : Bool
deriving DecidableEq, Repr

/-- `_build_comments_extended_xml` (docx_add_comments.py lines 266-290):
a `reply_to` index is bounds-checked against `comment_data` (the list of
placed comments) and resolved to that record by position; out of range
degrades to an unlinked entry. -/
def build_comments_extended (cd : List CData) : List ExtEntry :=
  cd.map (fun c =>
    match c.replyTo with
    | some j =>
      if 0 ≤ j ∧ j < (cd.length : Int) then
        ⟨c.paraId, (cd[j.toNat]?).map (·.paraId), c.resolved⟩
      else ⟨c.paraId, none, c.resolved⟩
    | none => ⟨c.paraId, none, c.resolved⟩)

/-! ### Package container patching (docx_add_comments.py
`_patch_content_types`, `_patch_relationships`) -/

def ctCommentsLine : List Char :=
  ("  <Override PartName=\"/word/comments.xml\" ContentType=\"application/vnd.openxmlformats-officedocument.wordprocessingml.comments+xml\"/>\n</Types>").toList

def ctCommentsExtLine : List Char :=
  ("  <Override PartName=\"/word/commentsExtended.xml\" ContentType=\"application/vnd.openxmlformats-officedocument.wordprocessingml.commentsExtended+xml\"/>\n</Types>").toList

/-- `_patch_content_types` (docx_add_comments.py lines 293-305): append an
override for each comment part unless the part is already mentioned. -/
def patch_content_types (content : List Char) : List Char :=
  let c1 := if hasSub ("comments.xml").toList content then content
    else pyReplace ("</Types>").toList ctCommentsLine content
  if hasSub ("commentsExtended.xml").toList c1 then c1
  else pyReplace ("</Types>").toList ctCommentsExtLine c1

/-- Leading decimal digits of a character list, and the remainder. -/
def digitSpan : List Char → List Char × List Char
  | [] => ([], [])
  | c :: rest =>
    if c.isDigit then
      let (ds, r) := digitSpan rest
      (c :: ds, r)
    else ([], c :: rest)

def natOfDigits (ds : List Char) : Nat :=
  ds.foldl (fun n c => n * 10 + (c.toNat - 48)) 0

/-- Fuelled scanner behind `findRIds`. -/
def findRIdsF : Nat → List Char → List Nat
  | 0, _ => []
  | _ + 1, [] => []
  | fuel + 1, c :: rest =>
    if ("Id=\"rId").toList.isPrefixOf (c :: rest) then
      let after := (c :: rest).drop ("Id=\"rId").toList.length
      let (ds, r) := digitSpan after
      if ds ≠ [] ∧ r.head? = some (Char.ofNat 34) then
        natOfDigits ds :: findRIdsF fuel (r.drop 1)
      else findRIdsF fuel rest
    else findRIdsF fuel rest

/-- The rId numeric suffixes that the relationship-id regex finds. -/
def findRIds (content : List Char) : List Nat :=
  findRIdsF (content.length + 1) content

def relCommentsLine (rid : Nat) : List Char :=
  ("  <Relationship Id=\"rId").toList ++ (Nat.toDigits 10 rid) ++
  ("\" Type=\"http://schemas.openxmlformats.org/officeDocument/2006/relationships/comments\" Target=\"comments.xml\"/>\n</Relationships>").toList

def relCommentsExtLine (rid : Nat) : List Char :=
  ("  <Relationship Id=\"rId").toList ++ (Nat.toDigits 10 rid) ++
  ("\" Type=\"http://schemas.microsoft.com/office/2011/relationships/commentsExtended\" Target=\"commentsExtended.xml\"/>\n</Relationships>").toList

/-- `_patch_relationships` (docx_add_comments.py lines 308-333): allocate
the next `rId` past the maximum existing numeric suffix, then append each
relationship unless its type is already referenced. -/
def patch_relationships (content : List Char) : List Char :=
  let rids := findRIds content
  let nextRid := if rids = [] then 1 else rids.foldl max 0 + 1
  let c1 := if hasSub ("relationships/comments").toList content then content
    else pyReplace ("</Relationships>").toList (relCommentsLine nextRid) content
  if hasSub ("relationships/commentsExtended").toList c1 then c1
  else pyReplace ("</Relationships>").toList (relCommentsExtLine (nextRid + 1)) c1

/-- Number of occurrences of `t` in `s` (non-overlapping, leftmost). -/
def countSub (t s : List Char) : Nat :=
  (occsAux t s 0).length

/-! ### Validation (docx_validate.py `check_structure` and `main`) -/

inductive Severity
  | critical
  | warning
deriving DecidableEq, Repr

/-- One ZIP entry of a package; XML parsing success is abstracted as the
`wellFormed` flag. -/
structure Part where
  pname : String
  content : List Char
  wellFormed : Bool

structure Pkg where
  parts : List Part

/-- `check_structure` (docx_validate.py lines 34-78): CRITICAL for each
missing required part, WARNING when the content-type manifest does not
reference the primary document part, WARNING for a missing relationship
part, CRITICAL for each malformed XML part. -/
def check_structure (pkg : Pkg) : List (Severity × String) :=
  let names := pkg.parts.map (·.pname)
  let missing := ["[Content_Types].xml", "word/document.xml"].filterMap
    (fun req => if req ∈ names then none
      else some (Severity.critical, "Missing required part: " ++ req))
  let ctIssues :=
    if "[Content_Types].xml" ∈ names then
      let ct := (((pkg.parts.find? (fun p =>
        p.pname == "[Content_Types].xml")).map (·.content)).getD [])
      if ¬ hasSub ("word/document.xml").toList ct = true ∧
          ¬ hasSub ("wordprocessingml.document.main").toList ct = true then
        [(Severity.warning, "document.xml not referenced in Content_Types")]
      else []
    else []
  let relIssues :=
    if "word/_rels/document.xml.rels" ∈ names then []
    else [(Severity.warning, "Missing document relationships file")]
  let xmlIssues := pkg.parts.filterMap (fun p =>
    if (p.pname.endsWith ".xml" || p.pname.endsWith ".rels") && !p.wellFormed
    then some (Severity.critical, "Malformed XML in " ++ p.pname)
    else none)
  missing ++ ctIssues ++ relIssues ++ xmlIssues

/-- The exit-code computation of `main` (docx_validate.py lines 299-311):
collect the findings of every executed check; exit 1 when any CRITICAL finding
exists, 0 otherwise (warnings only, or no findings). -/
def validateExit (issueLists : List (List (Severity × String))) : Nat :=
  let all := issueLists.flatten
  let criticals := (all.filter (fun i => decide (i.1 = Severity.critical))).length
  if criticals > 0 then 1 else 0


/-! ### Claim theorems -/

theorem processParas_spec (t r : List Char) (ht : t ≠ []) :
    ∀ ps : List (List (List Char)),
    ∃ ps2, processParas t r ps = some (ps2,
        (ps.map (fun p => (occsAux t p.flatten 0).length)).sum) ∧
      ps2.map List.flatten = ps.map (fun p => pyReplace t r p.flatten) := by
  intro ps
  induction ps with
  | nil => exact ⟨[], rfl, rfl⟩
  | cons p rest ih =>
    obtain ⟨p2, hp, hf⟩ := replace_in_runs_spec p t r ht
    obtain ⟨rest2, hr, hfr⟩ := ih
    refine ⟨p2 :: rest2, ?_, ?_⟩
    · simp only [processParas, hp, hr, List.map_cons, List.sum_cons]
    · simp only [List.map_cons, hf, hfr]

theorem processHF_spec (t r : List Char) (ht : t ≠ []) :
    ∀ hs : List HdrFtr, (∀ h ∈ hs, h.linked = false) →
    ∃ hs2, processHF t r hs = some (hs2,
        (hs.map (fun h =>
          (h.paras.map (fun p => (occsAux t p.flatten 0).length)).sum)).sum) ∧
      hs2.map (fun h => h.paras.map List.flatten) =
        hs.map (fun h => h.paras.map (fun p => pyReplace t r p.flatten)) := by
  intro hs
  induction hs with
  | nil => intro _; exact ⟨[], rfl, rfl⟩
  | cons h rest ih =>
    intro hlink
    obtain ⟨ps2, hp, hf⟩ := processParas_spec t r ht h.paras
    obtain ⟨rest2, hr, hfr⟩ := ih (fun x hx => hlink x (List.mem_cons_of_mem _ hx))
    have hl : h.linked = false := hlink h (List.mem_cons_self _ _)
    refine ⟨⟨h.linked, ps2⟩ :: rest2, ?_, ?_⟩
    · simp only [processHF, hl, if_pos rfl, hp, hr, List.map_cons, List.sum_cons]
      simp
    · simp only [List.map_cons, hf, hfr]

/-- C1: for every package (modelled by the paragraphs the scope `all`
walk visits, with no linked headers/footers) and every non-empty search
term, the simple find/replace succeeds, re-extracting every paragraph
concatenated run text yields the original text with every occurrence of
the term replaced, and the returned count is the total number of
occurrences replaced. -/
theorem C1_simple_replace_text (doc : DocModel) (t r : List Char)
    (output : String) (ht : t ≠ [])
    (hh : ∀ h ∈ doc.headers, h.linked = false)
    (hf : ∀ h ∈ doc.footers, h.linked = false) :
    ∃ doc2, simple_replace doc t r Scope.all false output =
      some (doc2,
        (doc.body.map (fun p => (occsAux t p.flatten 0).length)).sum +
        (doc.tables.map (fun p => (occsAux t p.flatten 0).length)).sum +
        (doc.headers.map (fun h =>
          (h.paras.map (fun p => (occsAux t p.flatten 0).length)).sum)).sum +
        (doc.footers.map (fun h =>
          (h.paras.map (fun p => (occsAux t p.flatten 0).length)).sum)).sum,
        [output]) ∧
      doc2.body.map List.flatten =
        doc.body.map (fun p => pyReplace t r p.flatten) ∧
      doc2.tables.map List.flatten =
        doc.tables.map (fun p => pyReplace t r p.flatten) ∧
      doc2.headers.map (fun h => h.paras.map List.flatten) =
        doc.headers.map (fun h => h.paras.map (fun p => pyReplace t r p.flatten)) ∧
      doc2.footers.map (fun h => h.paras.map List.flatten) =
        doc.footers.map (fun h => h.paras.map (fun p => pyReplace t r p.flatten)) := by
  obtain ⟨body2, hb, hbf⟩ := processParas_spec t r ht doc.body
  obtain ⟨tables2, htb, htf⟩ := processParas_spec t r ht doc.tables
  obtain ⟨headers2, hhd, hhf⟩ := processHF_spec t r ht doc.headers hh
  obtain ⟨footers2, hft, hff⟩ := processHF_spec t r ht doc.footers hf
  refine ⟨⟨body2, tables2, headers2, footers2⟩, ?_, hbf, htf, hhf, hff⟩
  simp only [simple_replace, if_pos (Or.inl rfl), hb, htb, hhd, hft]
  rfl

/-- C1 witness: the end-to-end "The quick fox" scenario. -/
theorem C1_simple_replace_text_witness :
    ∃ doc2, simple_replace
        (⟨[[("The quick fox").toList]], [], [], []⟩ : DocModel)
        ("quick").toList ("slow").toList Scope.all false "out.docx" =
      some (doc2, 1, ["out.docx"]) ∧
      doc2.body.map List.flatten = [("The slow fox").toList] := by
  obtain ⟨doc2, hrun, hbody, -, -, -⟩ := C1_simple_replace_text
    (⟨[[("The quick fox").toList]], [], [], []⟩ : DocModel)
    ("quick").toList ("slow").toList "out.docx"
    (by decide) (by intro h hx; cases hx) (by intro h hx; cases hx)
  refine ⟨doc2, ?_, ?_⟩
  · rw [hrun]
    rfl
  · rw [hbody]
    rfl


/-- Every `char_map` entry points into an existing run, before its end. -/
theorem charMap_valid : ∀ (rs : List (List Char)) (m a b : Nat),
    (charMap rs)[m]? = some (a, b) →
    ∃ run, rs[a]? = some run ∧ b < run.length := by
  intro rs
  induction rs with
  | nil => intro m a b h; simp [charMap_nil] at h
  | cons x rest ih =>
    intro m a b h
    by_cases hm : m < x.length
    · rw [charMap_get_head _ _ _ hm] at h
      have h0 := Option.some.inj h
      obtain ⟨ha, hb⟩ : 0 = a ∧ m = b :=
        ⟨congrArg Prod.fst h0, congrArg Prod.snd h0⟩
      subst ha; subst hb
      exact ⟨x, by simp, hm⟩
    · rw [show m = x.length + (m - x.length) from by omega,
        charMap_get_shift] at h
      obtain ⟨q, hq, hqe⟩ := Option.map_eq_some'.mp h
      obtain ⟨run, hr, hb⟩ := ih (m - x.length) q.1 q.2 (by rw [← hq])
      have ha : a = q.1 + 1 := by
        have := congrArg Prod.fst hqe; simpa using this.symm
      have hb2 : b = q.2 := by
        have := congrArg Prod.snd hqe; simpa using this.symm
      subst ha; subst hb2
      exact ⟨run, by simpa using hr, hb⟩

/-- Reading an element of the interior-clearing fold. -/
theorem foldl_set_getElem : ∀ (n a : Nat) (base : List (List Char)) (i : Nat),
    ((List.range' a n).foldl (fun rs j => rs.set j ([] : List Char)) base)[i]? =
      if a ≤ i ∧ i < a + n ∧ i < base.length then some [] else base[i]? := by
  intro n
  induction n with
  | zero =>
    intro a base i
    rw [List.range'_zero, List.foldl_nil, if_neg (by omega)]
  | succ n ih =>
    intro a base i
    rw [List.range'_succ, List.foldl_cons, ih]
    by_cases h1 : a + 1 ≤ i ∧ i < a + 1 + n ∧ i < (base.set a []).length
    · rw [if_pos h1, if_pos (by simp only [List.length_set] at h1; omega)]
    · rw [if_neg h1]
      simp only [List.length_set] at h1
      by_cases h2 : a = i
      · subst h2
        by_cases h3 : a < base.length
        · rw [if_pos (by omega), List.getElem?_set_self h3]
        · rw [if_neg (by omega), List.getElem?_set_self',
            List.getElem?_eq_none (show base.length ≤ a from by omega)]
          rfl
      · rw [List.getElem?_set_ne h2, if_neg (by omega)]

/-- A successful Python indexing reads an actual element of the list. -/
theorem pyGet_eq_some_getElem {α : Type} (l : List α) (i : Int) (v : α)
    (h : pyGet l i = some v) : ∃ m : Nat, l[m]? = some v := by
  by_cases hi : i < 0
  · by_cases hi2 : (l.length : Int) + i < 0
    · simp only [pyGet, if_pos hi, if_pos hi2] at h
      exact absurd h (by simp)
    · simp only [pyGet, if_pos hi, if_neg hi2] at h
      exact ⟨_, h⟩
  · simp only [pyGet, if_neg hi] at h
    exact ⟨_, h⟩

/-- C7: a match of the simple find/replace that spans more than one run
(the `char_map` maps its first character into run `sr` and its last into a
later run `er`) rewrites the paragraph so that run `sr` keeps its prefix
and receives the replacement text, every interior run becomes empty, run
`er` keeps only the text after the match, and all other runs are
untouched. -/
theorem C7_multi_run_span (r : List Char) (runs : List (List Char))
    (st en sr sc er ec : Nat)
    (hs : pyGet (charMap runs) ((st : Nat) : Int) = some (sr, sc))
    (he : pyGet (charMap runs) ((en : Int) - 1) = some (er, ec))
    (hlt : sr < er) :
    ∃ runs2 runS runE, runs[sr]? = some runS ∧ runs[er]? = some runE ∧
      applyMatch r runs (st, en) = some runs2 ∧
      runs2[sr]? = some (runS.take sc ++ r) ∧
      runs2[er]? = some (runE.drop (ec + 1)) ∧
      (∀ i, sr < i → i < er → runs2[i]? = some []) ∧
      (∀ i, i < sr ∨ er < i → runs2[i]? = runs[i]?) := by
  have hs2 : (charMap runs)[st]? = some (sr, sc) := by
    rw [← pyGet_natCast]; exact hs
  obtain ⟨runS, hrs, -⟩ := charMap_valid runs st sr sc hs2
  obtain ⟨me, hme⟩ := pyGet_eq_some_getElem _ _ _ he
  obtain ⟨runE, hre, -⟩ := charMap_valid runs me er ec hme
  have hsr_lt : sr < runs.length := by
    by_contra hc
    rw [List.getElem?_eq_none (by omega)] at hrs
    cases hrs
  have her_lt : er < runs.length := by
    by_contra hc
    rw [List.getElem?_eq_none (by omega)] at hre
    cases hre
  have happ : applyMatch r runs (st, en) =
      some ((List.range' (sr + 1) (er - (sr + 1))).foldl
        (fun rs i => rs.set i ([] : List Char))
        ((runs.set sr (runS.take sc ++ r)).set er (runE.drop (ec + 1)))) := by
    simp only [applyMatch, hs, he, hrs, hre]
    rw [if_neg (show ¬ sr = er from by omega)]
  refine ⟨_, runS, runE, hrs, hre, happ, ?_, ?_, ?_, ?_⟩
  · rw [foldl_set_getElem, if_neg (by omega), List.getElem?_set_ne (by omega),
      List.getElem?_set_self hsr_lt]
  · rw [foldl_set_getElem, if_neg (by omega),
      List.getElem?_set_self (by simpa using her_lt)]
  · intro i h1 h2
    rw [foldl_set_getElem, if_pos (by simp only [List.length_set]; omega)]
  · intro i hor
    rw [foldl_set_getElem, if_neg (by omega), List.getElem?_set_ne (by omega),
      List.getElem?_set_ne (by omega)]

/-- C7 witness: the match `(1, 5)` on runs `ab·cd·ef` spans runs 0 and 2;
the replacement lands in run 0, run 1 is cleared, run 2 keeps `f`. -/
theorem C7_multi_run_span_witness :
    ∃ runs2 runS runE,
      ([['a','b'],['c','d'],['e','f']] : List (List Char))[0]? = some runS ∧
      ([['a','b'],['c','d'],['e','f']] : List (List Char))[2]? = some runE ∧
      applyMatch ['X'] [['a','b'],['c','d'],['e','f']] (1, 5) = some runs2 ∧
      runs2[0]? = some (runS.take 1 ++ ['X']) ∧
      runs2[2]? = some (runE.drop 1) ∧
      (∀ i, 0 < i → i < 2 → runs2[i]? = some []) ∧
      (∀ i, i < 0 ∨ 2 < i → runs2[i]? = ([['a','b'],['c','d'],['e','f']] :
        List (List Char))[i]?) :=
  C7_multi_run_span ['X'] [['a','b'],['c','d'],['e','f']] 1 5 0 1 2 0
    (by decide) (by decide) (by decide)


/-- With an empty search pattern the scanner reports a zero-width match at
every position, exactly as `re.finditer("")` does. -/
theorem occsAux_empty_find : ∀ (s : List Char) (p : Nat),
    occsAux [] s p = List.range' p (s.length + 1) := by
  intro s
  induction s with
  | nil =>
    intro p
    rw [occsAux_nil, if_pos rfl]
    rfl
  | cons c rest ih =>
    intro p
    have hpre : ([] : List Char).isPrefixOf (c :: rest) := rfl
    rw [occsAux_cons_pos c rest p hpre,
      show max 1 ([] : List Char).length = 1 from rfl,
      show (c :: rest).drop 1 = rest from rfl, ih (p + 1),
      show (c :: rest).length + 1 = (rest.length + 1) + 1 from rfl,
      List.range'_succ, List.range'_succ, List.range'_succ]

/-- An empty search term is not rejected up front: on any paragraph that
has at least one run object, the match loop reads `char_map[len(text)]`,
which raises `IndexError` (modelled by `none`) before any edit. -/
theorem replace_in_runs_empty_find (runs : List (List Char)) (r : List Char)
    (hruns : runs ≠ []) : replace_in_runs runs [] r = none := by
  have hn : (charMap runs).length = runs.flatten.length := charMap_length runs
  have h1 : pyGet (charMap runs) ((runs.flatten.length : Nat) : Int) = none := by
    rw [pyGet_natCast]
    exact List.getElem?_eq_none (by omega)
  have hnone : applyMatch r runs
      (runs.flatten.length, runs.flatten.length + ([] : List Char).length) =
      none := by
    simp only [applyMatch, h1]
  have hms : matchesOf [] runs.flatten =
      (List.range' 0 runs.flatten.length).map
        (fun p => (p, p + ([] : List Char).length)) ++
      [(runs.flatten.length, runs.flatten.length + ([] : List Char).length)] := by
    show (occsAux [] runs.flatten 0).map _ = _
    have hconc : List.range' 0 (runs.flatten.length + 1) =
        List.range' 0 runs.flatten.length ++ [runs.flatten.length] := by
      have h := List.range'_1_concat 0 runs.flatten.length
      simpa using h
    rw [occsAux_empty_find, hconc, List.map_append]
    rfl
  have hunfold : replace_in_runs runs [] r =
      (if matchesOf [] runs.flatten = [] then some (runs, 0)
       else do
         let runs2 ← ((matchesOf [] runs.flatten).reverse).foldlM
           (applyMatch r) runs
         pure (runs2, (matchesOf [] runs.flatten).length)) := by
    rw [replace_in_runs, if_neg hruns]
  rw [hunfold, if_neg (by rw [hms]; simp)]
  rw [show ((matchesOf [] runs.flatten).reverse) =
      (runs.flatten.length, runs.flatten.length + ([] : List Char).length) ::
        ((List.range' 0 runs.flatten.length).map
          (fun p => (p, p + ([] : List Char).length))).reverse from by
    rw [hms, List.reverse_append]
    rfl]
  rw [List.foldlM_cons, hnone]
  rfl

theorem processParas_no_runs (t r : List Char) :
    ∀ ps : List (List (List Char)), (∀ p ∈ ps, p = []) →
    processParas t r ps = some (ps, 0) := by
  intro ps
  induction ps with
  | nil => intro _; rfl
  | cons p rest ih =>
    intro h
    have hp : p = [] := h p (List.mem_cons_self _ _)
    subst hp
    simp only [processParas, show replace_in_runs [] t r = some ([], 0) from rfl,
      ih (fun q hq => h q (List.mem_cons_of_mem _ hq))]

/-- C5 counterexample: an empty search term is not rejected.  On a
document whose paragraph has no runs, the simple replace completes
normally, performs zero replacements, and writes the output file — so it
is not the case that an empty term always fails fatally with no output. -/
theorem C5_counterexample :
    ¬ (∀ (doc : DocModel) (r : List Char) (output : String),
        simple_replace doc [] r Scope.all false output = none) := by
  intro h
  exact absurd (h ⟨[[]], [], [], []⟩ ['z'] "out.docx") (by decide)

/-- C5 amended: the code never validates the search term.  With an empty
term, a paragraph that has at least one run crashes the simple replace
with an uncaught IndexError (no output is written), while a document
whose paragraphs have no runs completes normally, reports zero
replacements, and writes the output. -/
theorem C5_empty_find_behavior :
    (∀ (runs : List (List Char)) (r : List Char), runs ≠ [] →
      replace_in_runs runs [] r = none) ∧
    (∀ (body : List (List (List Char))) (r : List Char) (output : String),
      (∀ p ∈ body, p = []) →
      simple_replace ⟨body, [], [], []⟩ [] r Scope.all false output =
        some (⟨body, [], [], []⟩, 0, [output])) := by
  constructor
  · intro runs r h
    exact replace_in_runs_empty_find runs r h
  · intro body r output h
    simp only [simple_replace, if_pos (Or.inl rfl),
      processParas_no_runs [] r body h,
      show processParas ([] : List Char) r [] = some ([], 0) from rfl]
    rfl

/-- C5 amended witness: a one-run paragraph crashes; a no-run document
completes and writes the output. -/
theorem C5_empty_find_behavior_witness :
    replace_in_runs [['a','b']] [] ['z'] = none ∧
    simple_replace (⟨[[]], [], [], []⟩ : DocModel) [] ['z'] Scope.all false
      "out.docx" = some (⟨[[]], [], [], []⟩, 0, ["out.docx"]) :=
  ⟨C5_empty_find_behavior.1 [['a','b']] ['z'] (by decide),
   C5_empty_find_behavior.2 [[]] ['z'] "out.docx" (by decide)⟩


theorem processParas_ok (t r : List Char) (ht : t ≠ [])
    (ps : List (List (List Char))) :
    ∃ ps2 c, processParas t r ps = some (ps2, c) := by
  obtain ⟨ps2, h, -⟩ := processParas_spec t r ht ps
  exact ⟨ps2, _, h⟩

theorem processHF_ok (t r : List Char) (ht : t ≠ []) :
    ∀ hs : List HdrFtr, ∃ hs2 c, processHF t r hs = some (hs2, c) := by
  intro hs
  induction hs with
  | nil => exact ⟨[], 0, rfl⟩
  | cons h rest ih =>
    obtain ⟨rest2, c2, hr⟩ := ih
    by_cases hl : h.linked = false
    · obtain ⟨ps2, c, hp⟩ := processParas_ok t r ht h.paras
      refine ⟨⟨h.linked, ps2⟩ :: rest2, c + c2, ?_⟩
      simp only [processHF, hl, if_pos rfl, hp, hr]
      simp
    · refine ⟨⟨h.linked, h.paras⟩ :: rest2, 0 + c2, ?_⟩
      simp only [processHF, if_neg hl, hr]

/-- C10: with `--dry-run`, both the simple and the tracked replace only
report the number of matches: the list of document writes is empty — the
output path is never written.  (In tracked mode the reported number is
the total match count over the non-empty text leaves: a `w:t` with empty
text is skipped before matching.) -/
theorem C10_dry_run_writes_nothing :
    (∀ (doc : DocModel) (t r : List Char) (scope : Scope) (output : String),
      t ≠ [] →
      ∃ doc2 n, simple_replace doc t r scope true output = some (doc2, n, [])) ∧
    (∀ (leaves : List (List Char)) (find repl : List Char)
      (author date output : String),
      tracked_replace leaves find repl author date true output =
        some (leaves.map (fun x => [Frag.plainRun x]),
          (leaves.map (fun x =>
            if x = [] then 0 else (matchesOf find x).length)).sum, [])) := by
  constructor
  · intro doc t r scope output ht
    have hb : ∃ v, (if scope = Scope.all ∨ scope = Scope.body
        then processParas t r doc.body else some (doc.body, 0)) = some v := by
      by_cases hs : scope = Scope.all ∨ scope = Scope.body
      · obtain ⟨ps2, c, hp⟩ := processParas_ok t r ht doc.body
        exact ⟨(ps2, c), by rw [if_pos hs, hp]⟩
      · exact ⟨(doc.body, 0), by rw [if_neg hs]⟩
    have htb : ∃ v, (if scope = Scope.all ∨ scope = Scope.tables
        then processParas t r doc.tables else some (doc.tables, 0)) = some v := by
      by_cases hs : scope = Scope.all ∨ scope = Scope.tables
      · obtain ⟨ps2, c, hp⟩ := processParas_ok t r ht doc.tables
        exact ⟨(ps2, c), by rw [if_pos hs, hp]⟩
      · exact ⟨(doc.tables, 0), by rw [if_neg hs]⟩
    have hhd : ∃ v, (if scope = Scope.all ∨ scope = Scope.headers
        then processHF t r doc.headers else some (doc.headers, 0)) = some v := by
      by_cases hs : scope = Scope.all ∨ scope = Scope.headers
      · obtain ⟨hs2, c, hp⟩ := processHF_ok t r ht doc.headers
        exact ⟨(hs2, c), by rw [if_pos hs, hp]⟩
      · exact ⟨(doc.headers, 0), by rw [if_neg hs]⟩
    have hft : ∃ v, (if scope = Scope.all ∨ scope = Scope.footers
        then processHF t r doc.footers else some (doc.footers, 0)) = some v := by
      by_cases hs : scope = Scope.all ∨ scope = Scope.footers
      · obtain ⟨hs2, c, hp⟩ := processHF_ok t r ht doc.footers
        exact ⟨(hs2, c), by rw [if_pos hs, hp]⟩
      · exact ⟨(doc.footers, 0), by rw [if_neg hs]⟩
    obtain ⟨⟨body2, c1⟩, h1⟩ := hb
    obtain ⟨⟨tables2, c2⟩, h2⟩ := htb
    obtain ⟨⟨headers2, c3⟩, h3⟩ := hhd
    obtain ⟨⟨footers2, c4⟩, h4⟩ := hft
    refine ⟨⟨body2, tables2, headers2, footers2⟩, c1 + c2 + c3 + c4, ?_⟩
    simp only [simple_replace, h1, h2, h3, h4]
    rfl
  · intro leaves find repl author date output
    rfl

/-- C10 witness; the tracked leaves include an empty `w:t` text, which is
skipped and contributes no match. -/
theorem C10_dry_run_writes_nothing_witness :
    (∃ doc2 n, simple_replace
      (⟨[[("ab").toList]], [], [], []⟩ : DocModel) ['a'] ['z'] Scope.all true
      "out.docx" = some (doc2, n, [])) ∧
    tracked_replace [[], ("ab").toList] ['a'] ['z'] "A" "D" true "out.docx" =
      some ([[], ("ab").toList].map (fun x => [Frag.plainRun x]),
        ([[], ("ab").toList].map (fun x =>
          if x = [] then 0 else (matchesOf ['a'] x).length)).sum, []) :=
  ⟨C10_dry_run_writes_nothing.1 ⟨[[("ab").toList]], [], [], []⟩ ['a'] ['z']
    Scope.all "out.docx" (by decide),
   C10_dry_run_writes_nothing.2 [[], ("ab").toList] ['a'] ['z'] "A" "D"
     "out.docx"⟩


theorem fragChangeIds_append : ∀ (l1 l2 : List Frag),
    fragChangeIds (l1 ++ l2) = fragChangeIds l1 ++ fragChangeIds l2 := by
  intro l1 l2
  induction l1 with
  | nil => rfl
  | cons f rest ih =>
    cases f with
    | plainRun t =>
      show fragChangeIds (rest ++ l2) = fragChangeIds rest ++ fragChangeIds l2
      exact ih
    | del i a d t => exact congrArg (List.cons i) ih
    | ins i a d t => exact congrArg (List.cons i) ih

theorem fragsForMatch_ids (repl : List Char) (authorName dateName : String)
    (cid : Nat) (text : List Char) (m : Nat × Nat) :
    fragChangeIds (fragsForMatch repl authorName dateName cid text m) =
      [cid, cid + 1] := by
  unfold fragsForMatch
  by_cases h1 : text.take m.1 ≠ [] <;> by_cases h2 : text.drop m.2 ≠ [] <;>
    [rw [if_pos h1, if_pos h2]; rw [if_pos h1, if_neg h2];
     rw [if_neg h1, if_pos h2]; rw [if_neg h1, if_neg h2]] <;>
    simp [fragChangeIds_append, fragChangeIds]

theorem fragsForMatch_mem (repl : List Char) (authorName dateName : String)
    (cid : Nat) (text : List Char) (m : Nat × Nat) (f : Frag)
    (h : f ∈ fragsForMatch repl authorName dateName cid text m) :
    f = Frag.plainRun (text.take m.1) ∨
    f = Frag.del cid authorName dateName ((text.take m.2).drop m.1) ∨
    f = Frag.ins (cid + 1) authorName dateName repl ∨
    f = Frag.plainRun (text.drop m.2) := by
  unfold fragsForMatch at h
  by_cases h1 : text.take m.1 ≠ [] <;> by_cases h2 : text.drop m.2 ≠ [] <;>
    [rw [if_pos h1, if_pos h2] at h; rw [if_pos h1, if_neg h2] at h;
     rw [if_neg h1, if_pos h2] at h; rw [if_neg h1, if_neg h2] at h] <;>
    simp only [List.mem_append, List.mem_cons, List.mem_singleton,
      List.not_mem_nil, List.nil_append, List.append_nil, or_false,
      false_or] at h <;>
    tauto

theorem fragsForMatch_has_ins (repl : List Char) (authorName dateName : String)
    (cid : Nat) (text : List Char) (m : Nat × Nat) :
    Frag.ins (cid + 1) authorName dateName repl ∈
      fragsForMatch repl authorName dateName cid text m := by
  unfold fragsForMatch
  by_cases h1 : text.take m.1 ≠ [] <;> by_cases h2 : text.drop m.2 ≠ [] <;>
    [rw [if_pos h1, if_pos h2]; rw [if_pos h1, if_neg h2];
     rw [if_neg h1, if_pos h2]; rw [if_neg h1, if_neg h2]] <;>
    simp

theorem processLeaf_cases (find repl : List Char) (author date : String)
    (text : List Char) (cid : Nat) (frags : List Frag) (cid1 c1 : Nat)
    (h : processLeaf find repl author date text cid = some (frags, cid1, c1)) :
    (frags = [Frag.plainRun text] ∧ cid1 = cid ∧ c1 = 0) ∨
    (∃ m, frags = fragsForMatch repl author date cid text m ∧
      cid1 = cid + 2 ∧ c1 = 1) := by
  unfold processLeaf at h
  by_cases htx : text = []
  · rw [if_pos htx] at h
    have := Option.some.inj h
    left
    exact ⟨(congrArg Prod.fst this).symm,
      (congrArg (fun v => v.2.1) this).symm,
      (congrArg (fun v => v.2.2) this).symm⟩
  · rw [if_neg htx] at h
    cases hms : matchesOf find text with
    | nil =>
      rw [hms] at h
      have := Option.some.inj h
      left
      exact ⟨(congrArg Prod.fst this).symm,
        (congrArg (fun v => v.2.1) this).symm,
        (congrArg (fun v => v.2.2) this).symm⟩
    | cons m tl =>
      cases tl with
      | nil =>
        rw [hms] at h
        have := Option.some.inj h
        right
        exact ⟨m, (congrArg Prod.fst this).symm,
          (congrArg (fun v => v.2.1) this).symm,
          (congrArg (fun v => v.2.2) this).symm⟩
      | cons m2 tl2 =>
        rw [hms] at h
        exact absurd h (by simp)

/-- The invariant of the tracked-changes loop: the change-id counter
advances by two per replacement, the emitted change ids are exactly the
consecutive block starting at the initial counter value (deletions and
insertions share one monotonically increasing counter), every deletion
with id `k` is paired with an insertion with id `k + 1`, and every
tracked fragment carries the one author and the one timestamp of the
invocation. -/
theorem trackedProcess_inv (find repl : List Char) (author date : String) :
    ∀ (leaves : List (List Char)) (cid : Nat) (out : List (List Frag))
      (cid2 total : Nat),
    trackedProcess find repl author date leaves cid = some (out, cid2, total) →
    cid2 = cid + 2 * total ∧
    fragChangeIds out.flatten = List.range' cid (2 * total) ∧
    (∀ i a d txt, Frag.del i a d txt ∈ out.flatten →
      a = author ∧ d = date ∧
        ∃ t2, Frag.ins (i + 1) author date t2 ∈ out.flatten) ∧
    (∀ i a d txt, Frag.ins i a d txt ∈ out.flatten →
      a = author ∧ d = date) := by
  intro leaves
  induction leaves with
  | nil =>
    intro cid out cid2 total h
    have h0 := Option.some.inj h
    have ho : ([] : List (List Frag)) = out := congrArg Prod.fst h0
    have hc : cid = cid2 := congrArg (fun v => v.2.1) h0
    have ht : 0 = total := congrArg (fun v => v.2.2) h0
    rw [← ho, ← hc, ← ht]
    refine ⟨by omega, rfl, ?_, ?_⟩
    · intro i a d txt hmem; simp at hmem
    · intro i a d txt hmem; simp at hmem
  | cons leaf rest ih =>
    intro cid out cid2 total h
    cases hpl : processLeaf find repl author date leaf cid with
    | none =>
      rw [show trackedProcess find repl author date (leaf :: rest) cid = none
        from by simp only [trackedProcess, hpl]] at h
      exact absurd h (by simp)
    | some v =>
      obtain ⟨frags, cid1, c1⟩ := v
      cases htp : trackedProcess find repl author date rest cid1 with
      | none =>
        rw [show trackedProcess find repl author date (leaf :: rest) cid = none
          from by simp only [trackedProcess, hpl, htp]] at h
        exact absurd h (by simp)
      | some w =>
        obtain ⟨out1, cidw, c2⟩ := w
        rw [show trackedProcess find repl author date (leaf :: rest) cid =
            some (frags :: out1, cidw, c1 + c2)
          from by simp only [trackedProcess, hpl, htp]] at h
        have h0 := Option.some.inj h
        have ho : frags :: out1 = out := congrArg Prod.fst h0
        have hc : cidw = cid2 := congrArg (fun v => v.2.1) h0
        have ht : c1 + c2 = total := congrArg (fun v => v.2.2) h0
        rw [← ho, ← hc, ← ht]
        obtain ⟨ihc, ihids, ihdel, ihins⟩ := ih cid1 out1 cidw c2 htp
        rcases processLeaf_cases find repl author date leaf cid frags cid1 c1
          hpl with ⟨hfr, hcid1, hc1⟩ | ⟨m, hfr, hcid1, hc1⟩
        · subst hfr
          rw [hcid1] at ihids ihc
          rw [hc1]
          refine ⟨by omega, ?_, ?_, ?_⟩
          · simp only [List.flatten_cons, fragChangeIds_append]
            rw [show fragChangeIds [Frag.plainRun leaf] = [] from rfl, ihids,
              List.nil_append]
            congr 1
            omega
          · intro i a d txt hmem
            simp only [List.flatten_cons, List.mem_append] at hmem
            rcases hmem with hmem | hmem
            · simp at hmem
            · obtain ⟨ha, hd, t2, hins⟩ := ihdel i a d txt hmem
              exact ⟨ha, hd, t2, by
                simp only [List.flatten_cons, List.mem_append]
                exact Or.inr hins⟩
          · intro i a d txt hmem
            simp only [List.flatten_cons, List.mem_append] at hmem
            rcases hmem with hmem | hmem
            · simp at hmem
            · exact ihins i a d txt hmem
        · subst hfr
          rw [hcid1] at ihids ihc
          rw [hc1]
          refine ⟨by omega, ?_, ?_, ?_⟩
          · simp only [List.flatten_cons, fragChangeIds_append,
              fragsForMatch_ids, ihids]
            rw [show [cid, cid + 1] = List.range' cid 2 from rfl,
              List.range'_append_1]
            congr 1
            omega
          · intro i a d txt hmem
            simp only [List.flatten_cons, List.mem_append] at hmem
            rcases hmem with hmem | hmem
            · rcases fragsForMatch_mem repl author date cid leaf m _ hmem with
                h1 | h1 | h1 | h1
              · cases h1
              · have hi : i = cid ∧ a = author ∧ d = date := by
                  cases h1; exact ⟨rfl, rfl, rfl⟩
                refine ⟨hi.2.1, hi.2.2, repl, ?_⟩
                simp only [List.flatten_cons, List.mem_append]
                rw [hi.1]
                exact Or.inl (fragsForMatch_has_ins repl author date cid leaf m)
              · cases h1
              · cases h1
            · obtain ⟨ha, hd, t2, hins⟩ := ihdel i a d txt hmem
              exact ⟨ha, hd, t2, by
                simp only [List.flatten_cons, List.mem_append]
                exact Or.inr hins⟩
          · intro i a d txt hmem
            simp only [List.flatten_cons, List.mem_append] at hmem
            rcases hmem with hmem | hmem
            · rcases fragsForMatch_mem repl author date cid leaf m _ hmem with
                h1 | h1 | h1 | h1
              · cases h1
              · cases h1
              · have : a = author ∧ d = date := by
                  cases h1; exact ⟨rfl, rfl⟩
                exact this
              · cases h1
            · exact ihins i a d txt hmem


/-- C2: in one (non-dry-run) tracked-changes invocation that completes,
change ids are exactly the consecutive block `100, 101, …` in emission
order — a single monotonically increasing counter shared by deletions and
insertions starting from the high base 100 — so every deletion fragment
with id `k` is paired with an insertion fragment with id `k + 1`, and all
tracked fragments carry the invocation author and the single timestamp
captured once per invocation. -/
theorem C2_tracked_change_ids (find repl : List Char) (author date : String)
    (leaves : List (List Char)) (out : List (List Frag)) (total : Nat)
    (output : String)
    (h : tracked_replace leaves find repl author date false output =
      some (out, total, [output])) :
    fragChangeIds out.flatten = List.range' 100 (2 * total) ∧
    (∀ i a d txt, Frag.del i a d txt ∈ out.flatten →
      a = author ∧ d = date ∧
        ∃ t2, Frag.ins (i + 1) author date t2 ∈ out.flatten) ∧
    (∀ i a d txt, Frag.ins i a d txt ∈ out.flatten →
      a = author ∧ d = date) := by
  unfold tracked_replace at h
  rw [if_neg (by simp)] at h
  cases htp : trackedProcess find repl author date leaves 100 with
  | none => rw [htp] at h; exact absurd h (by simp)
  | some w =>
    obtain ⟨out1, cidw, total1⟩ := w
    rw [htp] at h
    have h0 := Option.some.inj h
    have ho : out1 = out := congrArg Prod.fst h0
    have ht : total1 = total := congrArg (fun v => v.2.1) h0
    obtain ⟨-, hids, hdel, hins⟩ :=
      trackedProcess_inv find repl author date leaves 100 out1 cidw total1 htp
    rw [← ho, ← ht]
    exact ⟨hids, hdel, hins⟩

/-- C2 witness: the tracked "The quick fox" scenario emits the pair
`del 100 / ins 101` with one author and one timestamp. -/
theorem C2_tracked_change_ids_witness :
    fragChangeIds ([[Frag.plainRun ("The ").toList,
      Frag.del 100 "T" "2026-02-08T00:00:00Z" ("quick").toList,
      Frag.ins 101 "T" "2026-02-08T00:00:00Z" ("slow").toList,
      Frag.plainRun (" fox").toList]] : List (List Frag)).flatten =
      List.range' 100 (2 * 1) ∧
    (∀ i a d txt, Frag.del i a d txt ∈ ([[Frag.plainRun ("The ").toList,
      Frag.del 100 "T" "2026-02-08T00:00:00Z" ("quick").toList,
      Frag.ins 101 "T" "2026-02-08T00:00:00Z" ("slow").toList,
      Frag.plainRun (" fox").toList]] : List (List Frag)).flatten →
      a = "T" ∧ d = "2026-02-08T00:00:00Z" ∧
        ∃ t2, Frag.ins (i + 1) "T" "2026-02-08T00:00:00Z" t2 ∈
          ([[Frag.plainRun ("The ").toList,
            Frag.del 100 "T" "2026-02-08T00:00:00Z" ("quick").toList,
            Frag.ins 101 "T" "2026-02-08T00:00:00Z" ("slow").toList,
            Frag.plainRun (" fox").toList]] : List (List Frag)).flatten) ∧
    (∀ i a d txt, Frag.ins i a d txt ∈ ([[Frag.plainRun ("The ").toList,
      Frag.del 100 "T" "2026-02-08T00:00:00Z" ("quick").toList,
      Frag.ins 101 "T" "2026-02-08T00:00:00Z" ("slow").toList,
      Frag.plainRun (" fox").toList]] : List (List Frag)).flatten →
      a = "T" ∧ d = "2026-02-08T00:00:00Z") :=
  C2_tracked_change_ids ("quick").toList ("slow").toList "T"
    "2026-02-08T00:00:00Z" [("The quick fox").toList] _ 1 "out.docx" (by decide)


theorem findIdx_no_match_prefix (p : PChild → Bool) :
    ∀ (P : List PChild), (∀ a ∈ P, p a = false) →
    ∀ (b : PChild) (X : List PChild), p b = true →
    (P ++ b :: X).findIdx p = P.length := by
  intro P
  induction P with
  | nil =>
    intro _ b X hb
    rw [List.nil_append, List.findIdx_cons, hb]
    rfl
  | cons a P ih =>
    intro hP b X hb
    rw [List.cons_append, List.findIdx_cons, hP a (List.mem_cons_self _ _),
      ih (fun x hx => hP x (List.mem_cons_of_mem _ hx)) b X hb]
    rfl

theorem insertAt_append {α : Type} (A X : List α) (v : α) :
    insertAt (A ++ X) A.length v = A ++ v :: X := by
  unfold insertAt
  rw [List.take_left, List.drop_left]

/-- C3: injecting comment markers with a fresh id `c` into a paragraph
leaves a run-less paragraph untouched; otherwise the range start lands
immediately before the first pre-existing run, the range end immediately
after the last pre-existing run, followed by the reference run, with
everything between the first and last run unchanged, and the result holds
exactly one range start and exactly one range end with id `c`. -/
theorem C3_inject_markers (cid : Nat) :
    (∀ cs : List PChild, (∀ c ∈ cs, isRun c = false) →
      inject_markers cs cid = cs) ∧
    (∀ (A C D : List PChild) (ch cl : PChild),
      (∀ a ∈ A, isRun a = false) → (∀ a ∈ D, isRun a = false) →
      C.head? = some ch → isRun ch → C.getLast? = some cl → isRun cl →
      PChild.rangeStart cid ∉ A ++ C ++ D →
      PChild.rangeEnd cid ∉ A ++ C ++ D →
      inject_markers (A ++ C ++ D) cid =
        A ++ PChild.rangeStart cid :: (C ++ PChild.rangeEnd cid ::
          PChild.refRun cid :: D) ∧
      ((A ++ PChild.rangeStart cid :: (C ++ PChild.rangeEnd cid ::
          PChild.refRun cid :: D)).filter
        (fun c => decide (c = PChild.rangeStart cid))).length = 1 ∧
      ((A ++ PChild.rangeStart cid :: (C ++ PChild.rangeEnd cid ::
          PChild.refRun cid :: D)).filter
        (fun c => decide (c = PChild.rangeEnd cid))).length = 1) := by
  constructor
  · intro cs hnorun
    unfold inject_markers
    rw [if_pos (List.filter_eq_nil_iff.mpr
      (fun a ha => by rw [hnorun a ha]; simp))]
  · intro A C D ch cl hA hD hChead hchrun hClast hclrun hfreshS hfreshE
    obtain ⟨C2, hC2⟩ : ∃ C2, C = ch :: C2 := by
      cases C with
      | nil => cases hChead
      | cons x xs => exact ⟨xs, by cases hChead; rfl⟩
    have hmem_ch : ch ∈ A ++ C ++ D := by
      rw [hC2]; simp
    have hguard : ¬ ((A ++ C ++ D).filter isRun = []) := by
      rw [List.filter_eq_nil_iff]
      intro hall
      exact absurd hchrun (by simpa using hall ch hmem_ch)
    have hfind : (A ++ C ++ D).findIdx isRun = A.length := by
      rw [List.append_assoc, hC2]
      exact findIdx_no_match_prefix isRun A hA ch (C2 ++ D) hchrun
    -- the list after inserting the range start
    have hcs1 : insertAt (A ++ C ++ D) A.length (PChild.rangeStart cid) =
        A ++ PChild.rangeStart cid :: (C ++ D) := by
      rw [List.append_assoc]
      exact insertAt_append A (C ++ D) _
    -- the last run of the new list sits at position |A| + |C|
    have hrev : (A ++ PChild.rangeStart cid :: (C ++ D)).reverse.findIdx isRun
        = D.length := by
      obtain ⟨C3, hC3⟩ : ∃ C3, C.reverse = cl :: C3 := by
        cases hcr : C.reverse with
        | nil =>
          have hC0 : C = [] := by simpa using congrArg List.reverse hcr
          rw [hC0] at hClast
          simp at hClast
        | cons x xs =>
          refine ⟨xs, ?_⟩
          have := List.head?_reverse C
          rw [hcr] at this
          rw [hClast] at this
          cases this
          rfl
      have hsplit : (A ++ PChild.rangeStart cid :: (C ++ D)).reverse =
          D.reverse ++ cl :: (C3 ++ (PChild.rangeStart cid :: A.reverse)) := by
        rw [List.reverse_append, List.reverse_cons, List.reverse_append, hC3]
        simp [List.append_assoc]
      rw [hsplit, findIdx_no_match_prefix isRun D.reverse
        (fun a ha => hD a (by simpa using ha)) cl _ hclrun,
        List.length_reverse]
    have hlast : lastRunIdx (A ++ PChild.rangeStart cid :: (C ++ D)) =
        A.length + C.length := by
      unfold lastRunIdx
      rw [hrev]
      simp only [List.length_append, List.length_cons, List.length_append]
      omega
    -- the list after inserting the range end
    have hcs2 : insertAt (A ++ PChild.rangeStart cid :: (C ++ D))
        (A.length + C.length + 1) (PChild.rangeEnd cid) =
        A ++ PChild.rangeStart cid :: (C ++ PChild.rangeEnd cid :: D) := by
      have hsp : A ++ PChild.rangeStart cid :: (C ++ D) =
          (A ++ PChild.rangeStart cid :: C) ++ D := by
        simp [List.append_assoc]
      have hlen : (A ++ PChild.rangeStart cid :: C).length =
          A.length + C.length + 1 := by
        simp only [List.length_append, List.length_cons]
        omega
      rw [hsp, ← hlen, insertAt_append]
      simp [List.append_assoc]
    -- locating the just-inserted range end
    have hkey : (A ++ PChild.rangeStart cid :: (C ++ PChild.rangeEnd cid :: D)).findIdx
        (fun c => decide (c = PChild.rangeEnd cid)) = A.length + C.length + 1 := by
      have hsp : A ++ PChild.rangeStart cid :: (C ++ PChild.rangeEnd cid :: D) =
          (A ++ PChild.rangeStart cid :: C) ++ PChild.rangeEnd cid :: D := by
        simp [List.append_assoc]
      rw [hsp, findIdx_no_match_prefix _ (A ++ PChild.rangeStart cid :: C)
        ?_ (PChild.rangeEnd cid) D (by simp)]
      · simp only [List.length_append, List.length_cons]
        omega
      · intro a ha
        simp only [List.mem_append, List.mem_cons] at ha
        have hne : a ≠ PChild.rangeEnd cid := by
          rcases ha with ha | ha | ha
          · intro hc; exact hfreshE (by subst hc; simp [ha])
          · subst ha; intro hc; cases hc
          · intro hc; exact hfreshE (by subst hc; simp [ha])
        simpa using hne
    have hfinal : insertAt
        (A ++ PChild.rangeStart cid :: (C ++ PChild.rangeEnd cid :: D))
        (A.length + C.length + 1 + 1) (PChild.refRun cid) =
        A ++ PChild.rangeStart cid :: (C ++ PChild.rangeEnd cid ::
          PChild.refRun cid :: D) := by
      have hsp : A ++ PChild.rangeStart cid :: (C ++ PChild.rangeEnd cid :: D) =
          (A ++ PChild.rangeStart cid :: C ++ [PChild.rangeEnd cid]) ++ D := by
        simp [List.append_assoc]
      have hlen : (A ++ PChild.rangeStart cid :: C ++
          [PChild.rangeEnd cid]).length = A.length + C.length + 1 + 1 := by
        simp only [List.length_append, List.length_cons, List.length_nil]
        omega
      rw [hsp, ← hlen, insertAt_append]
      simp [List.append_assoc]
    refine ⟨?_, ?_, ?_⟩
    · unfold inject_markers
      rw [if_neg hguard]
      simp only [hfind, hcs1, hlast, hcs2, hkey, hfinal]
    · have hSA : A.filter (fun c => decide (c = PChild.rangeStart cid)) = [] := by
        rw [List.filter_eq_nil_iff]
        intro a ha hc
        exact hfreshS (by simp only [decide_eq_true_eq] at hc; subst hc; simp [ha])
      have hSC : C.filter (fun c => decide (c = PChild.rangeStart cid)) = [] := by
        rw [List.filter_eq_nil_iff]
        intro a ha hc
        exact hfreshS (by simp only [decide_eq_true_eq] at hc; subst hc; simp [ha])
      have hSD : D.filter (fun c => decide (c = PChild.rangeStart cid)) = [] := by
        rw [List.filter_eq_nil_iff]
        intro a ha hc
        exact hfreshS (by simp only [decide_eq_true_eq] at hc; subst hc; simp [ha])
      simp [List.filter_append, hSA, hSC, hSD, List.filter_cons]
    · have hEA : A.filter (fun c => decide (c = PChild.rangeEnd cid)) = [] := by
        rw [List.filter_eq_nil_iff]
        intro a ha hc
        exact hfreshE (by simp only [decide_eq_true_eq] at hc; subst hc; simp [ha])
      have hEC : C.filter (fun c => decide (c = PChild.rangeEnd cid)) = [] := by
        rw [List.filter_eq_nil_iff]
        intro a ha hc
        exact hfreshE (by simp only [decide_eq_true_eq] at hc; subst hc; simp [ha])
      have hED : D.filter (fun c => decide (c = PChild.rangeEnd cid)) = [] := by
        rw [List.filter_eq_nil_iff]
        intro a ha hc
        exact hfreshE (by simp only [decide_eq_true_eq] at hc; subst hc; simp [ha])
      simp [List.filter_append, hEA, hEC, hED, List.filter_cons]

/-- C3 witness: inject id 5 into `pPr · run a · bookmark · run c`. -/
theorem C3_inject_markers_witness :
    inject_markers [PChild.pPr, PChild.run ['a'], PChild.bookmark,
      PChild.run ['c']] 5 =
      [PChild.pPr] ++ PChild.rangeStart 5 ::
        ([PChild.run ['a'], PChild.bookmark, PChild.run ['c']] ++
          PChild.rangeEnd 5 :: PChild.refRun 5 :: []) ∧
    (([PChild.pPr] ++ PChild.rangeStart 5 ::
        ([PChild.run ['a'], PChild.bookmark, PChild.run ['c']] ++
          PChild.rangeEnd 5 :: PChild.refRun 5 :: [])).filter
      (fun c => decide (c = PChild.rangeStart 5))).length = 1 ∧
    (([PChild.pPr] ++ PChild.rangeStart 5 ::
        ([PChild.run ['a'], PChild.bookmark, PChild.run ['c']] ++
          PChild.rangeEnd 5 :: PChild.refRun 5 :: [])).filter
      (fun c => decide (c = PChild.rangeEnd 5))).length = 1 :=
  (C3_inject_markers 5).2 [PChild.pPr]
    [PChild.run ['a'], PChild.bookmark, PChild.run ['c']] []
    (PChild.run ['a']) (PChild.run ['c'])
    (by decide) (by decide) (by decide) (by decide) (by decide) (by decide)
    (by decide) (by decide)

/-! ### C4: comment id allocation -/

/-- Mapping a function over a filtered list equals a `filterMap`. -/
theorem map_filter_eq_filterMap {α β : Type} (f : α → β) (p : α → Bool) (l : List α) :
    (l.filter p).map f = l.filterMap (fun a => if p a then some (f a) else none) := by
  induction l with
  | nil => rfl
  | cons a l ih =>
    by_cases h : p a <;> simp [List.filter_cons, List.filterMap_cons, h, ih]

/-- The records built by phase 1 of `add_comments` correspond one-to-one,
in order, to the accepted manifest indices. -/
theorem buildCommentData_map {α : Type} (comments : List MEntry)
    (doc : List (List Char)) (paraIds : Nat → Nat) (f : CData → α) (g : Nat → α)
    (hfg : ∀ idx e, f ⟨100 + idx, MEntry.body e, paraIds idx,
        MEntry.resolved e, MEntry.replyTo e⟩ = g idx) :
    (buildCommentData comments doc paraIds).map f =
      (placedIdxs comments doc).map g := by
  unfold buildCommentData placedIdxs
  rw [List.map_filterMap, List.map_map, map_filter_eq_filterMap]
  refine List.filterMap_congr (fun a _ => ?_)
  by_cases hc : ((!a.2.anchor.isEmpty) && (!a.2.body.isEmpty) &&
      anchorFound doc a.2.anchor) = true
  · rw [if_pos hc, if_pos hc, Option.map_some']
    exact congrArg some (hfg a.1 a.2)
  · rw [if_neg hc, if_neg hc]
    rfl

/-- The accepted manifest indices form a sublist of `range`, hence are
strictly increasing and in particular distinct. -/
theorem placedIdxs_sublist_range (comments : List MEntry)
    (doc : List (List Char)) :
    List.Sublist (placedIdxs comments doc) (List.range comments.length) := by
  unfold placedIdxs
  have h2 := (List.filter_sublist (p := fun ie =>
    (!ie.2.anchor.isEmpty) && (!ie.2.body.isEmpty) &&
      anchorFound doc ie.2.anchor) comments.enum).map Prod.fst
  rwa [List.enum_map_fst] at h2

theorem placedIdxs_nodup (comments : List MEntry) (doc : List (List Char)) :
    (placedIdxs comments doc).Nodup :=
  (placedIdxs_sublist_range comments doc).nodup (List.nodup_range _)

/-- The generated numeric comment ids are `100 + idx` over the accepted
manifest indices. -/
theorem genIds_eq (comments : List MEntry) (doc : List (List Char)) :
    genIds comments doc = (placedIdxs comments doc).map (fun i => 100 + i) := by
  unfold genIds
  exact buildCommentData_map comments doc (fun _ => 0) _ _ (fun _ _ => rfl)

/-- C4: the claim fails as stated: `add_comments` never inspects the ids
already present in the input package, so a pre-seeded package holding an
existing comment id at or above the base offset 100 collides with a
generated id.  Witness: a package already containing id 100 and a
manifest whose first entry is placed generates id 100 again. -/
theorem C4_counterexample :
    ¬ (∀ (existing : List Nat) (comments : List MEntry)
        (doc : List (List Char)),
        ∀ i ∈ genIds comments doc, i ∉ existing) := by
  intro h
  exact h [100] [⟨['p'], ['A'], false, none⟩] [['p']] 100
    (by decide) (by decide)

/-- C4 (amended): within one `add_comments` invocation the generated ids
are pairwise distinct and all lie at or above the base offset 100, so
they cannot collide with any pre-existing id below the base; collision
with a pre-seeded id ≥ 100 is not prevented. -/
theorem C4_generated_ids_distinct (comments : List MEntry)
    (doc : List (List Char)) :
    (genIds comments doc).Nodup ∧ ∀ i ∈ genIds comments doc, 100 ≤ i := by
  constructor
  · rw [genIds_eq]
    exact (placedIdxs_nodup comments doc).map (fun a b h => by omega)
  · intro i hi
    rw [genIds_eq] at hi
    obtain ⟨j, _, rfl⟩ := List.mem_map.mp hi
    omega

/-! ### C6: reply threading -/

/-- The `paraId` fields of the placed records are the oracle values drawn
for the accepted manifest indices, in order. -/
theorem buildCommentData_paraIds (comments : List MEntry)
    (doc : List (List Char)) (paraIds : Nat → Nat) :
    (buildCommentData comments doc paraIds).map (·.paraId) =
      (placedIdxs comments doc).map paraIds :=
  buildCommentData_map comments doc paraIds _ _ (fun _ _ => rfl)

theorem buildCommentData_length (comments : List MEntry)
    (doc : List (List Char)) (paraIds : Nat → Nat) :
    (buildCommentData comments doc paraIds).length =
      (placedIdxs comments doc).length := by
  have h := congrArg List.length (buildCommentData_paraIds comments doc paraIds)
  simpa using h

/-- C6: the claim fails as stated: `reply_to` is bounds-checked against
and resolved into `comment_data`, the list of comments that were actually
placed, not the input manifest.  Witness: the manifest
`[skipped, A, B(reply_to = 1)]` whose first entry is dropped for a
missing body; index 1 names entry A in the manifest, but the builder
records the paragraph id of `comment_data[1]`, which is B itself. -/
theorem C6_counterexample :
    ¬ (∀ (comments : List MEntry) (doc : List (List Char))
        (pids : Nat → Nat) (k : Nat) (c : CData) (j : Int),
        (buildCommentData comments doc pids)[k]? = some c →
        c.replyTo = some j → 0 ≤ j → j < (comments.length : Int) →
        (build_comments_extended (buildCommentData comments doc pids))[k]? =
          some ⟨c.paraId, some (pids j.toNat), c.resolved⟩) := by
  intro h
  have hx := h [⟨['x'], [], false, none⟩, ⟨['p'], ['A'], false, none⟩,
      ⟨['p'], ['B'], false, some 1⟩] [['p'], ['q']] (fun n => n) 1
      ⟨102, ['B'], 2, false, some 1⟩ 1 (by decide) rfl (by decide) (by decide)
  exact absurd hx (by decide)

/-- C6 (amended): a `reply_to` index `j` is interpreted positionally in
the list of placed comments: when `0 ≤ j` and `j` is below the number of
placed comments, the extended-metadata entry records as parent the
paragraph id generated for the `j`-th placed manifest entry (not manifest
entry `j`); an out-of-range index degrades to an unlinked entry instead
of failing the batch. -/
theorem C6_reply_to_resolution (comments : List MEntry)
    (doc : List (List Char)) (pids : Nat → Nat) (k : Nat) (c : CData)
    (j : Int) (hk : (buildCommentData comments doc pids)[k]? = some c)
    (hr : c.replyTo = some j) :
    ∃ e : ExtEntry,
      (build_comments_extended (buildCommentData comments doc pids))[k]? =
          some e ∧
      e.paraId = c.paraId ∧ e.done = c.resolved ∧
      ((0 ≤ j ∧ j < ((placedIdxs comments doc).length : Int)) →
        ∃ pidx, (placedIdxs comments doc)[j.toNat]? = some pidx ∧
          e.parent = some (pids pidx)) ∧
      (¬ (0 ≤ j ∧ j < ((placedIdxs comments doc).length : Int)) →
        e.parent = none) := by
  have hlen := buildCommentData_length comments doc pids
  have hext : (build_comments_extended
      (buildCommentData comments doc pids))[k]? =
      some (match c.replyTo with
        | some j =>
          if 0 ≤ j ∧ j < ((buildCommentData comments doc pids).length : Int)
          then ⟨c.paraId,
            ((buildCommentData comments doc pids)[j.toNat]?).map (·.paraId),
            c.resolved⟩
          else ⟨c.paraId, none, c.resolved⟩
        | none => ⟨c.paraId, none, c.resolved⟩) := by
    unfold build_comments_extended
    rw [List.getElem?_map, hk, Option.map_some']
  rw [hr] at hext
  have hext2 : (build_comments_extended
      (buildCommentData comments doc pids))[k]? =
      some (if 0 ≤ j ∧ j < ((buildCommentData comments doc pids).length : Int)
        then ⟨c.paraId,
          ((buildCommentData comments doc pids)[j.toNat]?).map (·.paraId),
          c.resolved⟩
        else (⟨c.paraId, none, c.resolved⟩ : ExtEntry)) := hext
  clear hext
  by_cases hb : 0 ≤ j ∧ j < ((placedIdxs comments doc).length : Int)
  · have hb' : 0 ≤ j ∧
        j < ((buildCommentData comments doc pids).length : Int) := by
      rw [hlen]
      exact hb
    rw [if_pos hb'] at hext2
    obtain ⟨hb1, hb2⟩ := hb
    have hjn : j.toNat < (placedIdxs comments doc).length := by omega
    have hpm : (((buildCommentData comments doc pids)[j.toNat]?).map
          (·.paraId)) = ((placedIdxs comments doc)[j.toNat]?).map pids := by
      rw [← List.getElem?_map, ← List.getElem?_map,
        buildCommentData_paraIds comments doc pids]
    have hplaced : (placedIdxs comments doc)[j.toNat]? =
        some ((placedIdxs comments doc)[j.toNat]) :=
      List.getElem?_eq_getElem hjn
    refine ⟨_, hext2, rfl, rfl,
      fun _ => ⟨(placedIdxs comments doc)[j.toNat], hplaced, ?_⟩,
      fun hcon => absurd ⟨hb1, hb2⟩ hcon⟩
    show (((buildCommentData comments doc pids)[j.toNat]?).map (·.paraId)) =
      some (pids ((placedIdxs comments doc)[j.toNat]))
    rw [hpm, hplaced, Option.map_some']
  · have hb' : ¬ (0 ≤ j ∧
        j < ((buildCommentData comments doc pids).length : Int)) := by
      rw [hlen]
      exact hb
    rw [if_neg hb'] at hext2
    exact ⟨_, hext2, rfl, rfl, fun hcon => absurd hcon hb, fun _ => rfl⟩

/-- A concrete run of the amended C6 statement: a two-entry manifest whose
second entry replies to placed comment 0 resolves the parent to the
paragraph id drawn for manifest entry 0. -/
theorem C6_reply_to_resolution_witness :
    ∃ e : ExtEntry,
      (build_comments_extended (buildCommentData
          [⟨['p'], ['A'], false, none⟩, ⟨['p'], ['B'], false, some 0⟩]
          [['p']] (fun n => n + 7)))[1]? = some e ∧
      e.paraId = (⟨101, ['B'], 8, false, some 0⟩ : CData).paraId ∧
      e.done = (⟨101, ['B'], 8, false, some 0⟩ : CData).resolved ∧
      ((0 ≤ (0 : Int) ∧ (0 : Int) < ((placedIdxs
          [⟨['p'], ['A'], false, none⟩, ⟨['p'], ['B'], false, some 0⟩]
          [['p']]).length : Int)) →
        ∃ pidx, (placedIdxs
            [⟨['p'], ['A'], false, none⟩, ⟨['p'], ['B'], false, some 0⟩]
            [['p']])[(0 : Int).toNat]? = some pidx ∧
          e.parent = some (pidx + 7)) ∧
      (¬ (0 ≤ (0 : Int) ∧ (0 : Int) < ((placedIdxs
          [⟨['p'], ['A'], false, none⟩, ⟨['p'], ['B'], false, some 0⟩]
          [['p']]).length : Int)) →
        e.parent = none) :=
  C6_reply_to_resolution
    [⟨['p'], ['A'], false, none⟩, ⟨['p'], ['B'], false, some 0⟩]
    [['p']] (fun n => n + 7) 1 ⟨101, ['B'], 8, false, some 0⟩ 0
    (by decide) rfl

/-! ### C8: container patching idempotence -/

set_option maxRecDepth 4000 in
/-- C8: patching is idempotent: when the content-type manifest already
mentions both comment parts and the relationship manifest already carries
both comment relationship types, re-running either patcher changes
nothing; and one patch of a fresh manifest yields exactly one
content-type override and exactly one relationship entry per part. -/
theorem C8_patch_idempotent (ct rel : List Char)
    (h1 : hasSub ("comments.xml").toList ct = true)
    (h2 : hasSub ("commentsExtended.xml").toList ct = true)
    (h3 : hasSub ("relationships/comments").toList rel = true)
    (h4 : hasSub ("relationships/commentsExtended").toList rel = true) :
    (patch_content_types ct = ct ∧ patch_relationships rel = rel) ∧
    (countSub ("PartName=\"/word/comments.xml\"").toList
        (patch_content_types (("<Types xmlns=\"ct\"></Types>").toList)) = 1 ∧
      countSub ("PartName=\"/word/commentsExtended.xml\"").toList
        (patch_content_types (("<Types xmlns=\"ct\"></Types>").toList)) = 1 ∧
      countSub ("Target=\"comments.xml\"").toList
        (patch_relationships
          (("<Relationships xmlns=\"r\"></Relationships>").toList)) = 1 ∧
      countSub ("Target=\"commentsExtended.xml\"").toList
        (patch_relationships
          (("<Relationships xmlns=\"r\"></Relationships>").toList)) = 1) := by
  refine ⟨⟨?_, ?_⟩, by decide, by decide, by decide, by decide⟩
  · simp only [patch_content_types]
    rw [if_pos h1, if_pos h2]
  · simp only [patch_relationships]
    rw [if_pos h3, if_pos h4]

set_option maxRecDepth 4000 in
/-- A concrete run of C8: patching a fresh content-type manifest and a
fresh relationship manifest once and then a second time changes nothing
the second time. -/
theorem C8_patch_idempotent_witness :
    (patch_content_types
        (patch_content_types (("<Types xmlns=\"ct\"></Types>").toList)) =
        patch_content_types (("<Types xmlns=\"ct\"></Types>").toList) ∧
      patch_relationships (patch_relationships
          (("<Relationships xmlns=\"r\"></Relationships>").toList)) =
        patch_relationships
          (("<Relationships xmlns=\"r\"></Relationships>").toList)) ∧
    (countSub ("PartName=\"/word/comments.xml\"").toList
        (patch_content_types (("<Types xmlns=\"ct\"></Types>").toList)) = 1 ∧
      countSub ("PartName=\"/word/commentsExtended.xml\"").toList
        (patch_content_types (("<Types xmlns=\"ct\"></Types>").toList)) = 1 ∧
      countSub ("Target=\"comments.xml\"").toList
        (patch_relationships
          (("<Relationships xmlns=\"r\"></Relationships>").toList)) = 1 ∧
      countSub ("Target=\"commentsExtended.xml\"").toList
        (patch_relationships
          (("<Relationships xmlns=\"r\"></Relationships>").toList)) = 1) :=
  C8_patch_idempotent
    (patch_content_types (("<Types xmlns=\"ct\"></Types>").toList))
    (patch_relationships (("<Relationships xmlns=\"r\"></Relationships>").toList))
    (by decide) (by decide) (by decide) (by decide)

/-! ### C9: validation exit codes -/

/-- Any CRITICAL finding in any executed check forces exit code 1. -/
theorem validateExit_one_of_critical
    (ls : List (List (Severity × String))) (l : List (Severity × String))
    (i : Severity × String) (hl : l ∈ ls) (hi : i ∈ l)
    (hc : i.1 = Severity.critical) : validateExit ls = 1 := by
  have hmem : i ∈ ls.flatten := List.mem_flatten.mpr ⟨l, hl, hi⟩
  have hmf : i ∈ ls.flatten.filter (fun x => decide (x.1 = Severity.critical)) :=
    List.mem_filter.mpr ⟨hmem, by rw [hc]; rfl⟩
  have hpos : 0 <
      (ls.flatten.filter (fun x => decide (x.1 = Severity.critical))).length :=
    List.length_pos.mpr (List.ne_nil_of_mem hmf)
  simp only [validateExit]
  rw [if_pos hpos]

/-- Warning-only findings leave the exit code at 0. -/
theorem validateExit_zero_of_warnings
    (ls : List (List (Severity × String)))
    (h : ∀ l ∈ ls, ∀ i ∈ l, i.1 = Severity.warning) : validateExit ls = 0 := by
  have hfil : ls.flatten.filter (fun x => decide (x.1 = Severity.critical)) =
      [] := by
    refine List.filter_eq_nil_iff.mpr (fun a ha => ?_)
    obtain ⟨l, hl, hal⟩ := List.mem_flatten.mp ha
    have hw := h l hl a hal
    rw [hw]
    decide
  simp only [validateExit]
  rw [hfil]
  rfl

/-- C9: the validate tool exits 1 whenever some executed check reports a
CRITICAL finding and exits 0 when every finding is a WARNING; a package
missing its content-type manifest part gets a CRITICAL
"Missing required part" finding from `check_structure` and hence exit
code 1 regardless of what the other checks report. -/
theorem C9_validate_exit_codes
    (issueLists : List (List (Severity × String))) (pkg : Pkg)
    (rest : List (List (Severity × String))) :
    ((∃ l ∈ issueLists, ∃ i ∈ l, i.1 = Severity.critical) →
      validateExit issueLists = 1) ∧
    ((∀ l ∈ issueLists, ∀ i ∈ l, i.1 = Severity.warning) →
      validateExit issueLists = 0) ∧
    ("[Content_Types].xml" ∉ pkg.parts.map (·.pname) →
      (Severity.critical, "Missing required part: [Content_Types].xml") ∈
          check_structure pkg ∧
        validateExit (check_structure pkg :: rest) = 1) := by
  refine ⟨?_, ?_, ?_⟩
  · rintro ⟨l, hl, i, hi, hc⟩
    exact validateExit_one_of_critical issueLists l i hl hi hc
  · intro h
    exact validateExit_zero_of_warnings issueLists h
  · intro hnot
    have hmem : (Severity.critical,
        "Missing required part: [Content_Types].xml") ∈ check_structure pkg := by
      simp only [check_structure]
      apply List.mem_append_left
      apply List.mem_append_left
      apply List.mem_append_left
      refine List.mem_filterMap.mpr ⟨"[Content_Types].xml", by decide, ?_⟩
      rw [if_neg hnot]
      rfl
    exact ⟨hmem, validateExit_one_of_critical _ (check_structure pkg) _
      (List.mem_cons_self _ _) hmem rfl⟩

/-- A concrete run of C9: one critical finding exits 1; warning-only
findings exit 0; the empty package is missing the content-type manifest
and exits 1. -/
theorem C9_validate_exit_codes_witness :
    validateExit [[(Severity.critical, "x")]] = 1 ∧
    validateExit [[(Severity.warning, "y")], []] = 0 ∧
    ((Severity.critical, "Missing required part: [Content_Types].xml") ∈
        check_structure ⟨[]⟩ ∧
      validateExit [check_structure ⟨[]⟩] = 1) := by
  refine ⟨?_, ?_, ?_⟩
  · exact (C9_validate_exit_codes [[(Severity.critical, "x")]] ⟨[]⟩ []).1
      ⟨[(Severity.critical, "x")], by simp, (Severity.critical, "x"), by simp,
        rfl⟩
  · exact (C9_validate_exit_codes [[(Severity.warning, "y")], []] ⟨[]⟩
      []).2.1 (by decide)
  · exact (C9_validate_exit_codes [] ⟨[]⟩ []).2.2 (by decide)

end DocxSkill
